import Mathlib

/-
Verification of the pombump analysis and patch-strategy engine.

The analyzer package itself is not part of the source snapshot (only its tests,
the CLI glue in cmd/pombump/analyze.go, and the build files are), so the engine
is modelled here from the specification's component design; the CLI's patch-file
merge helpers are modelled from cmd/pombump/analyze.go directly.  Maps are
modelled as insertion-ordered association lists (a deterministic refinement of
Go's unordered maps), machine strings as Lean strings.
-/

set_option maxHeartbeats 1000000

namespace Pombump

/-- Association-list lookup keyed by strings: the value of the first entry whose
key equals the query, mirroring a Go map read (a nil map reads as the empty
list). -/
def lookupAssoc {β : Type} : List (String × β) → String → Option β
  | [], _ => none
  | (k, v) :: rest, key => if k == key then some v else lookupAssoc rest key

/-- Association-list insert-or-update keyed by strings: replaces the first entry
with the given key, or appends a new entry, mirroring a Go map write while
keeping a deterministic order. -/
def upsertAssoc {β : Type} : List (String × β) → String → β → List (String × β)
  | [], k, v => [(k, v)]
  | (k1, v1) :: rest, k, v =>
    if k1 == k then (k, v) :: rest else (k1, v1) :: upsertAssoc rest k v

/-- Modelled from the spec: a dependency declaration as delivered by the
external manifest parser (data model and external interfaces sections): the GAV
coordinate plus the type and scope attributes consulted by BOM detection.
Unset attributes are empty strings, as in the parsed Go struct. -/
structure Dependency where
  groupID : String
  artifactID : String
  version : String
  type : String := ""
  scope : String := ""
deriving DecidableEq

/-- Modelled from the spec: the per-dependency semantic record (data model
section): GAV data, whether the version is a whole-string property reference,
and the referenced property name (empty when not property-based). -/
structure DependencyInfo where
  groupID : String
  artifactID : String
  version : String
  usesProperty : Bool
  propertyName : String
deriving DecidableEq

/-- Modelled from the spec: a BOM import record (data model section). -/
structure BOMInfo where
  groupID : String
  artifactID : String
  version : String
  type : String := ""
  scope : String := ""
deriving DecidableEq

/-- Modelled from the spec: a desired patch (data model section): the target
GAV, plus type and scope fields used when the patch represents a BOM-update
recommendation. -/
structure Patch where
  groupID : String
  artifactID : String
  version : String
  type : String := ""
  scope : String := ""
deriving DecidableEq

/-- Modelled from the spec: the parsed manifest consumed by the analyzer
(external interfaces section): optional property block, optional dependency
list, optional dependency-management list.  A missing manifest is `none` at
the `AnalyzeProject` call. -/
structure Project where
  properties : Option (List (String × String)) := none
  dependencies : Option (List Dependency) := none
  dependencyManagement : Option (List Dependency) := none

/-- Modelled from the spec: the aggregate analysis result (data model section):
DependencyInfo map keyed by GAV key, Properties map, property usage counts, and
the BOM list in declaration order. -/
structure AnalysisResult where
  dependencies : List (String × DependencyInfo)
  properties : List (String × String)
  propertyUsageCounts : List (String × Nat)
  boms : List BOMInfo
deriving DecidableEq

/-- Modelled from the spec: one conflict record of the Conflict Detector
(conflict detection section): the group, the versions independently requested
per artifact, the recommended action, and for update_bom the matched BOM and
computed optimal version. -/
structure VersionConflict where
  groupID : String
  requestedVersions : List (String × String)
  recommendedAction : String
  bomCandidate : Option BOMInfo
  optimalVersion : String
deriving DecidableEq

/-- Modelled from the spec: the map key of a GAV coordinate, "groupID:artifactID". -/
def Patch.gavKey (p : Patch) : String :=
  p.groupID ++ ":" ++ p.artifactID

/-- Modelled from the spec: the map key of a parsed dependency declaration. -/
def Dependency.gavKey (d : Dependency) : String :=
  d.groupID ++ ":" ++ d.artifactID

/-- Character-list prefix test, modelling Go's strings.HasPrefix. -/
def charsStartsWith : List Char → List Char → Bool
  | _, [] => true
  | [], _ :: _ => false
  | c :: cs, p :: ps => c == p && charsStartsWith cs ps

/-- Character-list suffix test, modelling Go's strings.HasSuffix. -/
def charsEndsWith (cs p : List Char) : Bool :=
  charsStartsWith cs.reverse p.reverse

/-- Modelled from the spec: the Property Resolver's reference check (property
resolver and design-notes sections): a raw version string is a property
reference iff the whole string is the two-character dollar-brace opener, a
body, and the closing brace, with nothing outside the delimiters; the extracted
name is the body verbatim (no trimming, no recursive unwrapping).  Returns
(isPropertyReference, propertyName). -/
def extractPropertyRef (version : String) : Bool × String :=
  let cs := version.data
  if charsStartsWith cs ['$', '\x7b'] && charsEndsWith cs ['\x7d'] then
    (true, String.mk ((cs.drop 2).dropLast))
  else
    (false, "")

/-- Modelled from the spec: the BOM Detector predicate (BOM detector section):
a dependency-management entry is a BOM import iff its type is "pom" and its
scope is "import". -/
def isBOMImport (dep : Dependency) : Bool :=
  dep.type == "pom" && dep.scope == "import"

/-- The BOM record of a matching dependency-management entry. -/
def bomOfDep (dep : Dependency) : BOMInfo :=
  ⟨dep.groupID, dep.artifactID, dep.version, dep.type, dep.scope⟩

/-- Increment a property's usage count (dependency analyzer section, step 4). -/
def bumpCount (counts : List (String × Nat)) (name : String) : List (String × Nat) :=
  match lookupAssoc counts name with
  | some n => upsertAssoc counts name (n + 1)
  | none => upsertAssoc counts name 1

/-- Modelled from the spec: the Dependency Analyzer's per-entry step (dependency
analyzer section): build the GAV key, run the Property Resolver on the raw
version, insert/update the DependencyInfo record at that key (last write wins),
and bump the usage count of the referenced property. -/
def analyzeDependency (dep : Dependency) (result : AnalysisResult) : AnalysisResult :=
  let ref := extractPropertyRef dep.version
  let info : DependencyInfo := ⟨dep.groupID, dep.artifactID, dep.version, ref.1, ref.2⟩
  { result with
    dependencies := upsertAssoc result.dependencies dep.gavKey info
    propertyUsageCounts :=
      if ref.1 then bumpCount result.propertyUsageCounts ref.2
      else result.propertyUsageCounts }

/-- Modelled from the spec: AnalyzeProject (dependency analyzer, BOM detector
and error handling sections): a nil project is the fatal error "project is
nil"; otherwise walk the optional dependency list and then the optional
dependency-management list, appending BOM-predicate matches to the BOM list in
declaration order and recording non-matching management entries as ordinary
DependencyInfo records; nil or empty containers yield an empty result, not an
error. -/
def AnalyzeProject (project : Option Project) : Except String AnalysisResult :=
  match project with
  | none => Except.error "project is nil"
  | some proj =>
    let r0 : AnalysisResult := ⟨[], proj.properties.getD [], [], []⟩
    let r1 := (proj.dependencies.getD []).foldl (fun r d => analyzeDependency d r) r0
    let r2 := (proj.dependencyManagement.getD []).foldl
      (fun r d =>
        if isBOMImport d then { r with boms := r.boms ++ [bomOfDep d] }
        else analyzeDependency d r) r1
    Except.ok r2

/-- The (always successful) analysis of a present project, for concrete runs. -/
def analyzedResult (proj : Project) : AnalysisResult :=
  match AnalyzeProject (some proj) with
  | Except.ok r => r
  | Except.error _ => ⟨[], [], [], []⟩

/-- Modelled from the spec: split a version string into segments at '.' and '-'
(optimal version selection section); `acc` holds the reversed current segment. -/
def splitSegs : List Char → List Char → List (List Char)
  | [], acc => [acc.reverse]
  | c :: cs, acc =>
    if c == '.' || c == '-' then acc.reverse :: splitSegs cs []
    else splitSegs cs (c :: acc)

/-- A non-empty all-digit segment is compared numerically. -/
def segIsNumeric (seg : List Char) : Bool :=
  !seg.isEmpty && seg.all (fun c => c.isDigit)

/-- Decimal value of an all-digit segment. -/
def segToNat (seg : List Char) : Nat :=
  seg.foldl (fun n c => n * 10 + (c.toNat - '0'.toNat)) 0

/-- Case-sensitive lexicographic comparison of character lists. -/
def compareChars : List Char → List Char → Ordering
  | [], [] => Ordering.eq
  | [], _ :: _ => Ordering.lt
  | _ :: _, [] => Ordering.gt
  | a :: as, b :: bs =>
    if a < b then Ordering.lt
    else if b < a then Ordering.gt
    else compareChars as bs

/-- Modelled from the spec: comparison of one version segment (optimal version
selection section): numeric segments as integers, otherwise case-sensitive
strings. -/
def compareSeg (a b : List Char) : Ordering :=
  if segIsNumeric a && segIsNumeric b then
    if segToNat a < segToNat b then Ordering.lt
    else if segToNat b < segToNat a then Ordering.gt
    else Ordering.eq
  else compareChars a b

/-- Modelled from the spec: left-to-right comparison of the segment lists; a
strict prefix is smaller. -/
def compareSegLists : List (List Char) → List (List Char) → Ordering
  | [], [] => Ordering.eq
  | [], _ :: _ => Ordering.lt
  | _ :: _, [] => Ordering.gt
  | a :: as, b :: bs =>
    match compareSeg a b with
    | Ordering.eq => compareSegLists as bs
    | o => o

/-- Modelled from the spec: the dotted/hyphen-segmented version comparator
(optimal version selection section). -/
def compareVersions (v1 v2 : String) : Ordering :=
  compareSegLists (splitSegs v1.data []) (splitSegs v2.data [])

/-- Fold keeping the running best version under the segmented comparator. -/
def foldMaxVersion : String → List String → String
  | best, [] => best
  | best, v :: vs =>
    foldMaxVersion (if compareVersions v best = Ordering.gt then v else best) vs

/-- Modelled from the spec: Optimal BOM Version Selection (optimal version
selection section): of all versions requested within the conflicting group,
select the greatest under the segmented comparator (the empty mapping yields
the empty string). -/
def calculateOptimalBOMVersion (requestedVersions : List (String × String)) : String :=
  match requestedVersions with
  | [] => ""
  | (_, v) :: rest => foldMaxVersion v (rest.map (fun e => e.2))

/-- Modelled from the spec: linear scan of the BOM list for the first entry
whose groupID exactly equals the target groupID; no artifact-name matching
(find-BOM-for-group section). -/
def findBOMForGroup (result : AnalysisResult) (groupID : String) : Option BOMInfo :=
  result.boms.find? (fun b => b.groupID == groupID)

/-- Modelled from the spec: all patches of one group request identical versions
(conflict detector section, step 2). -/
def allSameVersion : List Patch → Bool
  | [] => true
  | p :: ps => ps.all (fun q => q.version == p.version)

/-- First-occurrence-order deduplication, `seen` holding the keys already
emitted. -/
def dedupFirstAux : List String → List String → List String
  | [], _ => []
  | x :: xs, seen =>
    if seen.any (fun y => y == x) then dedupFirstAux xs seen
    else x :: dedupFirstAux xs (x :: seen)

/-- First-occurrence-order deduplication of group identifiers, a deterministic
refinement of iterating a Go map of groups (conflict detector section, step 1). -/
def dedupFirst (l : List String) : List String :=
  dedupFirstAux l []

/-- Modelled from the spec: the Conflict Detector's per-group decision
(conflict detector section): a group with at least two patches whose requested
versions are not all identical is a conflict; with a matching BOM the
recommended action is update_bom together with the BOM candidate and the
optimal version, otherwise direct. -/
def conflictForGroup (result : AnalysisResult) (patches : List Patch) (g : String) :
    Option VersionConflict :=
  if 2 ≤ (patches.filter (fun p => p.groupID == g)).length
      ∧ allSameVersion (patches.filter (fun p => p.groupID == g)) = false then
    match findBOMForGroup result g with
    | some bom =>
      some ⟨g, (patches.filter (fun p => p.groupID == g)).map
          (fun p => (p.artifactID, p.version)),
        "update_bom", some bom,
        calculateOptimalBOMVersion ((patches.filter (fun p => p.groupID == g)).map
          (fun p => (p.artifactID, p.version)))⟩
    | none =>
      some ⟨g, (patches.filter (fun p => p.groupID == g)).map
          (fun p => (p.artifactID, p.version)),
        "direct", none, ""⟩
  else none

/-- Modelled from the spec: the Conflict Detector (conflict detector section):
group the desired patches by groupID and report one VersionConflict per
conflicting group, in first-occurrence order of the groups. -/
def detectVersionConflicts (result : AnalysisResult) (patches : List Patch) :
    List VersionConflict :=
  (dedupFirst (patches.map (fun p => p.groupID))).filterMap
    (conflictForGroup result patches)

/-- Modelled from the spec: the property name a patch would stage (patch
strategy section, step 2): the name recorded in the patch's DependencyInfo when
that record exists and uses a property; none otherwise. -/
def stagedName (result : AnalysisResult) (p : Patch) : Option String :=
  match lookupAssoc result.dependencies p.gavKey with
  | some info => if info.usesProperty then some info.propertyName else none
  | none => none

/-- Modelled from the spec: per-patch processing (patch strategy section,
step 2), with the staged property updates as accumulator: a patch whose GAV key
is unknown, or whose dependency record does not use a property, is echoed as a
direct patch unchanged; otherwise a property update is staged, the first staged
value for a property name winning and later values for the same name being
discarded. -/
def processPatchesAux (result : AnalysisResult) :
    List Patch → List (String × String) → List Patch × List (String × String)
  | [], props => ([], props)
  | p :: ps, props =>
    match lookupAssoc result.dependencies p.gavKey with
    | none =>
      let rest := processPatchesAux result ps props
      (p :: rest.1, rest.2)
    | some info =>
      if info.usesProperty then
        if (lookupAssoc props info.propertyName).isSome then
          processPatchesAux result ps props
        else
          processPatchesAux result ps (props ++ [(info.propertyName, p.version)])
      else
        let rest := processPatchesAux result ps props
        (p :: rest.1, rest.2)

/-- Step 2 of the Patch Strategy Engine run on a patch list from an empty
staging map. -/
def processPatches (result : AnalysisResult) (patches : List Patch) :
    List Patch × List (String × String) :=
  processPatchesAux result patches []

/-- The conflicts flagged update_bom by the Conflict Detector (patch strategy
section, step 1). -/
def bomConflictsOf (result : AnalysisResult) (patches : List Patch) :
    List VersionConflict :=
  (detectVersionConflicts result patches).filter
    (fun c => c.recommendedAction == "update_bom")

/-- The direct patches synthesized for the update_bom conflicts: one patch per
flagged group, for the BOM artifact at the optimal version, with type pom and
scope import (patch strategy section, step 1). -/
def bomPatchesOf (result : AnalysisResult) (patches : List Patch) : List Patch :=
  (bomConflictsOf result patches).filterMap (fun c =>
    c.bomCandidate.map (fun bom =>
      ⟨bom.groupID, bom.artifactID, c.optimalVersion, "pom", "import"⟩))

/-- The patches left for per-patch processing: every patch whose group was
resolved by an update_bom conflict is excluded (patch strategy section,
step 1). -/
def remainingPatches (result : AnalysisResult) (patches : List Patch) : List Patch :=
  patches.filter (fun p =>
    !((bomConflictsOf result patches).any (fun c => c.groupID == p.groupID)))

/-- Modelled from the spec: the Patch Strategy Engine (patch strategy section):
run the Conflict Detector over the full patch list first; every group flagged
update_bom is resolved immediately into exactly one direct patch for the BOM
artifact at the optimal version (type pom, scope import), and every patch of
such a group is excluded from further processing; the remaining patches are
processed individually. -/
def PatchStrategy (result : AnalysisResult) (patches : List Patch) :
    List Patch × List (String × String) :=
  (bomPatchesOf result patches
      ++ (processPatches result (remainingPatches result patches)).1,
   (processPatches result (remainingPatches result patches)).2)

/-- A dependency-patch file, as read and written by the CLI
(src/cmd/pombump/analyze.go). -/
structure PatchList where
  patches : List Patch
deriving DecidableEq

/-- One property patch entry of a properties file (src/cmd/pombump/analyze.go). -/
structure PropertyPatch where
  property : String
  value : String
deriving DecidableEq

/-- A property-patch file, as read and written by the CLI
(src/cmd/pombump/analyze.go). -/
structure PropertyList where
  properties : List PropertyPatch
deriving DecidableEq

/-- The merge step of writeDepsFile (src/cmd/pombump/analyze.go): `readResult`
stands for the outcome of reading the existing output file (`none`: the file
could not be read; `some (error e)`: its contents failed to unmarshal as YAML;
`some (ok l)`: parsed contents).  A read or unmarshal failure silently starts
from an empty list; old then new patches are keyed by groupID:artifactID, later
writes for the same key overwriting earlier ones; the merged list is written
back, which the pure model returns as an ok value (the Go function reports an
error only for marshal or write failures, which a pure merge cannot hit). -/
def writeDepsFile (readResult : Option (Except String PatchList))
    (patches : List Patch) : Except String PatchList :=
  let existingList : PatchList :=
    match readResult with
    | none => ⟨[]⟩
    | some (Except.error _) => ⟨[]⟩
    | some (Except.ok l) => l
  let patchMap := existingList.patches.foldl
    (fun m p => upsertAssoc m p.gavKey p) []
  let patchMap := patches.foldl (fun m p => upsertAssoc m p.gavKey p) patchMap
  Except.ok ⟨patchMap.map (fun e => e.2)⟩

/-- The merge step of writePropertiesFile (src/cmd/pombump/analyze.go), with
the same file-reading convention as `writeDepsFile`: a read or unmarshal
failure silently starts from an empty list; old then new properties are keyed
by property name, later writes overwriting earlier ones. -/
def writePropertiesFile (readResult : Option (Except String PropertyList))
    (properties : List (String × String)) : Except String PropertyList :=
  let existingList : PropertyList :=
    match readResult with
    | none => ⟨[]⟩
    | some (Except.error _) => ⟨[]⟩
    | some (Except.ok l) => l
  let propMap := existingList.properties.foldl
    (fun m p => upsertAssoc m p.property p.value) []
  let propMap := properties.foldl (fun m kv => upsertAssoc m kv.1 kv.2) propMap
  Except.ok ⟨propMap.map (fun e => PropertyPatch.mk e.1 e.2)⟩

/-! Association-list lemmas. -/

theorem lookupAssoc_upsert_self {β : Type} (m : List (String × β)) (k : String) (v : β) :
    lookupAssoc (upsertAssoc m k v) k = some v := by
  induction m with
  | nil => simp [upsertAssoc, lookupAssoc]
  | cons e rest ih =>
    obtain ⟨k1, v1⟩ := e
    by_cases h : k1 == k
    · simp [upsertAssoc, lookupAssoc, h]
    · simp only [upsertAssoc, lookupAssoc, h, Bool.false_eq_true, if_false, ite_false]
      exact ih

theorem mem_upsertAssoc {β : Type} {m : List (String × β)} {k : String} {v : β}
    {e : String × β} (h : e ∈ upsertAssoc m k v) : e = (k, v) ∨ e ∈ m := by
  induction m with
  | nil => simpa [upsertAssoc] using h
  | cons e1 rest ih =>
    obtain ⟨k1, v1⟩ := e1
    by_cases hk : k1 == k
    · simp only [upsertAssoc, hk, if_true, List.mem_cons] at h
      rcases h with h | h
      · exact Or.inl h
      · exact Or.inr (List.mem_cons_of_mem _ h)
    · simp only [upsertAssoc, hk, Bool.false_eq_true, if_false, List.mem_cons] at h
      rcases h with h | h
      · exact Or.inr (by simp [h])
      · rcases ih h with h1 | h1
        · exact Or.inl h1
        · exact Or.inr (List.mem_cons_of_mem _ h1)

theorem mem_foldl_upsert {α β : Type} (k : α → String) (v : α → β) (l : List α)
    (acc : List (String × β)) :
    ∀ e ∈ l.foldl (fun m p => upsertAssoc m (k p) (v p)) acc,
      e ∈ acc ∨ ∃ p ∈ l, e = (k p, v p) := by
  induction l generalizing acc with
  | nil => intro e he; exact Or.inl he
  | cons p ps ih =>
    intro e he
    simp only [List.foldl_cons] at he
    rcases ih (upsertAssoc acc (k p) (v p)) e he with h | h
    · rcases mem_upsertAssoc h with h1 | h1
      · exact Or.inr ⟨p, List.mem_cons_self _ _, h1⟩
      · exact Or.inl h1
    · obtain ⟨q, hq, hq2⟩ := h
      exact Or.inr ⟨q, List.mem_cons_of_mem _ hq, hq2⟩

theorem lookupAssoc_append {β : Type} (m1 m2 : List (String × β)) (k : String) :
    lookupAssoc (m1 ++ m2) k =
      match lookupAssoc m1 k with
      | some v => some v
      | none => lookupAssoc m2 k := by
  induction m1 with
  | nil => simp [lookupAssoc]
  | cons e rest ih =>
    obtain ⟨k1, v1⟩ := e
    by_cases h : k1 == k
    · simp [lookupAssoc, h]
    · simp only [List.cons_append, lookupAssoc, h, Bool.false_eq_true, if_false, ite_false]
      exact ih

theorem lookupAssoc_eq_none_iff {β : Type} (m : List (String × β)) (k : String) :
    lookupAssoc m k = none ↔ ∀ e ∈ m, ¬ e.1 = k := by
  induction m with
  | nil => simp [lookupAssoc]
  | cons e rest ih =>
    obtain ⟨k1, v1⟩ := e
    by_cases h : k1 == k
    · simp only [lookupAssoc, h, if_true]
      constructor
      · intro hc; exact absurd hc (by simp)
      · intro hall
        exact absurd (eq_of_beq h) (hall (k1, v1) (List.mem_cons_self _ _))
    · simp only [lookupAssoc, h, Bool.false_eq_true, if_false, ite_false]
      rw [ih]
      constructor
      · intro hall e he
        rcases List.mem_cons.mp he with he1 | he1
        · subst he1
          intro hc
          exact h (by simp [show k1 = k from hc])
        · exact hall e he1
      · intro hall e he
        exact hall e (List.mem_cons_of_mem _ he)

/-- C7: analyzing a nil project fails with the error "project is nil" and no
result, while a project whose dependency and dependency-management containers
are nil or empty analyzes successfully to the empty (non-nil) result. -/
theorem claim7_nilProjectFatal_emptyProjectOk :
    AnalyzeProject none = Except.error "project is nil"
    ∧ AnalyzeProject (some ⟨none, none, none⟩) = Except.ok ⟨[], [], [], []⟩
    ∧ AnalyzeProject (some ⟨none, some [], some []⟩) = Except.ok ⟨[], [], [], []⟩ :=
  ⟨rfl, rfl, rfl⟩

/-- Unfolding of the deps-file merge at a failed unmarshal. -/
theorem writeDepsFile_error_eq (err : String) (ps : List Patch) :
    writeDepsFile (some (Except.error err)) ps
      = Except.ok ⟨(ps.foldl (fun m p => upsertAssoc m p.gavKey p) []).map
          (fun ent => ent.2)⟩ := rfl

/-- Unfolding of the properties-file merge at a failed unmarshal. -/
theorem writePropertiesFile_error_eq (err : String) (props : List (String × String)) :
    writePropertiesFile (some (Except.error err)) props
      = Except.ok ⟨(props.foldl (fun m kv => upsertAssoc m kv.1 kv.2) []).map
          (fun ent => PropertyPatch.mk ent.1 ent.2)⟩ := rfl

/-- C10: when the existing output file's contents fail to unmarshal, the CLI
merge helpers silently start from an empty list: the outcome equals a merge
into an empty parsed file, it is reported as success (never as an error for the
discarded contents), and the written file holds only the new patches. -/
theorem claim10_corruptFileStartsFresh :
    (∀ (e : String) (ps : List Patch),
      writeDepsFile (some (Except.error e)) ps
          = writeDepsFile (some (Except.ok ⟨[]⟩)) ps
      ∧ ∃ l, writeDepsFile (some (Except.error e)) ps = Except.ok l
          ∧ ∀ p ∈ l.patches, p ∈ ps)
    ∧ (∀ (e : String) (props : List (String × String)),
      writePropertiesFile (some (Except.error e)) props
          = writePropertiesFile (some (Except.ok ⟨[]⟩)) props
      ∧ ∃ l, writePropertiesFile (some (Except.error e)) props = Except.ok l
          ∧ ∀ q ∈ l.properties, ∃ kv ∈ props, q = ⟨kv.1, kv.2⟩) := by
  constructor
  · intro err ps
    constructor
    · rfl
    · refine ⟨_, writeDepsFile_error_eq err ps, ?_⟩
      intro p hp
      simp only [List.mem_map] at hp
      obtain ⟨ent, hent, hval⟩ := hp
      rcases mem_foldl_upsert (fun p : Patch => p.gavKey) (fun p => p) ps [] ent hent with
        h | ⟨q, hq, hq2⟩
      · simp at h
      · subst hval
        rw [hq2]
        exact hq
  · intro err props
    constructor
    · rfl
    · refine ⟨_, writePropertiesFile_error_eq err props, ?_⟩
      intro q hq
      simp only [List.mem_map] at hq
      obtain ⟨ent, hent, hval⟩ := hq
      rcases mem_foldl_upsert (fun kv : String × String => kv.1) (fun kv => kv.2)
        props [] ent hent with h | ⟨kv, hkv, hkv2⟩
      · simp at h
      · subst hval
        refine ⟨kv, hkv, ?_⟩
        rw [hkv2]

/-- C10 witness: the merge helpers at a concrete corrupt read. -/
theorem claim10_witness :
    writeDepsFile (some (Except.error "yaml: bad")) [⟨"g", "a", "1", "", ""⟩]
        = writeDepsFile (some (Except.ok ⟨[]⟩)) [⟨"g", "a", "1", "", ""⟩]
    ∧ writePropertiesFile (some (Except.error "yaml: bad")) [("p", "1")]
        = writePropertiesFile (some (Except.ok ⟨[]⟩)) [("p", "1")] :=
  ⟨(claim10_corruptFileStartsFresh.1 "yaml: bad" [⟨"g", "a", "1", "", ""⟩]).1,
   (claim10_corruptFileStartsFresh.2 "yaml: bad" [("p", "1")]).1⟩

/-! BOM-list construction lemmas. -/

theorem boms_analyzeDependency (d : Dependency) (r : AnalysisResult) :
    (analyzeDependency d r).boms = r.boms := rfl

theorem boms_foldl_analyze (deps : List Dependency) (r : AnalysisResult) :
    (deps.foldl (fun r d => analyzeDependency d r) r).boms = r.boms := by
  induction deps generalizing r with
  | nil => rfl
  | cons d rest ih =>
    simp only [List.foldl_cons]
    rw [ih, boms_analyzeDependency]

theorem boms_foldl_mgmt (mgmt : List Dependency) (r : AnalysisResult) :
    (mgmt.foldl
      (fun r d =>
        if isBOMImport d then { r with boms := r.boms ++ [bomOfDep d] }
        else analyzeDependency d r) r).boms
      = r.boms ++ (mgmt.filter isBOMImport).map bomOfDep := by
  induction mgmt generalizing r with
  | nil => simp
  | cons d rest ih =>
    by_cases h : isBOMImport d
    · simp only [List.foldl_cons, h, if_true, List.filter_cons_of_pos, List.map_cons]
      rw [ih]
      simp [List.append_assoc]
    · simp only [List.foldl_cons, h, Bool.false_eq_true, if_false,
        List.filter_cons_of_neg, List.map_cons]
      rw [ih, boms_analyzeDependency]
      simp [List.filter_cons, h]

/-- C8: the analysis BOM list holds exactly the dependency-management entries
satisfying the IsBOM predicate, in declaration order, and the predicate is true
iff type is "pom" and scope is "import". -/
theorem claim8_bomListExactlyManagementBOMs :
    ∀ (proj : Project) (res : AnalysisResult),
      AnalyzeProject (some proj) = Except.ok res →
      res.boms = ((proj.dependencyManagement.getD []).filter isBOMImport).map bomOfDep
      ∧ (∀ d : Dependency, isBOMImport d = true ↔ (d.type = "pom" ∧ d.scope = "import")) := by
  intro proj res h
  have h2 : res = ((proj.dependencyManagement.getD []).foldl
      (fun r d =>
        if isBOMImport d then { r with boms := r.boms ++ [bomOfDep d] }
        else analyzeDependency d r)
      ((proj.dependencies.getD []).foldl (fun r d => analyzeDependency d r)
        ⟨[], proj.properties.getD [], [], []⟩)) := by
    simpa [AnalyzeProject] using h.symm
  constructor
  · rw [h2, boms_foldl_mgmt, boms_foldl_analyze]
    rfl
  · intro d
    simp [isBOMImport, Bool.and_eq_true, beq_iff_eq]

/-- The dependency-management data of TestBOMDetection's first scenario. -/
def bomProject : Project :=
  { dependencyManagement := some
      [⟨"org.springframework.boot", "spring-boot-dependencies", "2.7.18", "pom", "import"⟩,
       ⟨"com.amazonaws", "aws-java-sdk-bom", "1.12.400", "pom", "import"⟩,
       ⟨"com.fasterxml.jackson.core", "jackson-databind", "2.15.2", "", ""⟩] }

/-- C8 witness: the Spring Boot and AWS BOM imports are detected, the plain
jackson management entry is not. -/
theorem claim8_witness :
    (analyzedResult bomProject).boms
      = [⟨"org.springframework.boot", "spring-boot-dependencies", "2.7.18", "pom", "import"⟩,
         ⟨"com.amazonaws", "aws-java-sdk-bom", "1.12.400", "pom", "import"⟩]
    ∧ isBOMImport ⟨"com.fasterxml.jackson.core", "jackson-databind", "2.15.2", "", ""⟩ = false := by
  constructor
  · have h := (claim8_bomListExactlyManagementBOMs bomProject (analyzedResult bomProject) rfl).1
    rw [h]
    rfl
  · rfl

/-! findBOMForGroup lemmas. -/

theorem find?_first {α : Type} (p : α → Bool) (l1 : List α) (b : α) (l2 : List α)
    (hb : p b = true) (hl1 : ∀ x ∈ l1, p x = false) :
    (l1 ++ b :: l2).find? p = some b := by
  induction l1 with
  | nil => simpa using List.find?_cons_of_pos l2 hb
  | cons x xs ih =>
    have hx := hl1 x (List.mem_cons_self _ _)
    rw [List.cons_append, List.find?_cons_of_neg _ (by simp [hx])]
    exact ih (fun y hy => hl1 y (List.mem_cons_of_mem _ hy))

/-- C9: findBOMForGroup returns the first BOM whose groupID exactly equals the
query (so the returned BOM always carries the query groupID — a BOM under a
different groupID can never match, whatever its artifactID), and returns
nothing iff no BOM has that groupID. -/
theorem claim9_findBOMForGroupExactFirstMatch :
    ∀ (r : AnalysisResult) (g : String),
      (∀ b, findBOMForGroup r g = some b → b.groupID = g ∧ b ∈ r.boms)
      ∧ (findBOMForGroup r g = none ↔ ∀ b ∈ r.boms, ¬ b.groupID = g)
      ∧ (∀ (l1 : List BOMInfo) (b : BOMInfo) (l2 : List BOMInfo),
          r.boms = l1 ++ b :: l2 → b.groupID = g → (∀ x ∈ l1, ¬ x.groupID = g) →
          findBOMForGroup r g = some b) := by
  intro r g
  refine ⟨?_, ?_, ?_⟩
  · intro b hb
    refine ⟨?_, List.mem_of_find?_eq_some hb⟩
    have h1 := List.find?_some hb
    simpa using h1
  · rw [findBOMForGroup, List.find?_eq_none]
    constructor
    · intro h b hb
      simpa using h b hb
    · intro h b hb
      simpa using h b hb
  · intro l1 b l2 hsplit hb hl1
    rw [findBOMForGroup, hsplit]
    exact find?_first _ l1 b l2 (by simpa using hb)
      (fun x hx => by simpa using hl1 x hx)

/-- The BOM list of TestFindBOMForGroup, with a decoy netty-bom artifact under
a different groupID. -/
def findBomResult : AnalysisResult :=
  ⟨[], [], [],
   [⟨"io.netty", "netty-bom", "4.1.94.Final", "", ""⟩,
    ⟨"org.springframework", "spring-framework-bom", "5.3.21", "", ""⟩,
    ⟨"com.example", "netty-bom", "1.0.0", "", ""⟩]⟩

/-- C9 witness: exact groupID matching and no cross-group artifact matching. -/
theorem claim9_witness :
    findBOMForGroup findBomResult "io.netty"
      = some ⟨"io.netty", "netty-bom", "4.1.94.Final", "", ""⟩
    ∧ findBOMForGroup findBomResult "com.unknown" = none := by
  constructor
  · exact (claim9_findBOMForGroupExactFirstMatch findBomResult "io.netty").2.2 []
      ⟨"io.netty", "netty-bom", "4.1.94.Final", "", ""⟩
      [⟨"org.springframework", "spring-framework-bom", "5.3.21", "", ""⟩,
       ⟨"com.example", "netty-bom", "1.0.0", "", ""⟩]
      rfl rfl (by intro x hx; simp at hx)
  · exact (claim9_findBOMForGroupExactFirstMatch findBomResult "com.unknown").2.1.mpr
      (by decide)

/-! Property-reference extraction lemmas. -/

theorem charsStartsWith_pair_iff (cs : List Char) (a b : Char) :
    charsStartsWith cs [a, b] = true ↔ ∃ rest, cs = a :: b :: rest := by
  cases cs with
  | nil => simp [charsStartsWith]
  | cons c1 cs1 =>
    cases cs1 with
    | nil => simp [charsStartsWith]
    | cons c2 rest =>
      simp [charsStartsWith, Bool.and_eq_true, beq_iff_eq, List.cons.injEq]

theorem charsStartsWith_single_iff (cs : List Char) (a : Char) :
    charsStartsWith cs [a] = true ↔ ∃ rest, cs = a :: rest := by
  cases cs <;> simp [charsStartsWith, beq_iff_eq, List.cons.injEq]

theorem charsEndsWith_single_iff (cs : List Char) (a : Char) :
    charsEndsWith cs [a] = true ↔ ∃ front, cs = front ++ [a] := by
  unfold charsEndsWith
  rw [show ([a].reverse : List Char) = [a] from rfl, charsStartsWith_single_iff]
  constructor
  · rintro ⟨rest, hrest⟩
    refine ⟨rest.reverse, ?_⟩
    have h2 := congrArg List.reverse hrest
    simpa using h2
  · rintro ⟨front, rfl⟩
    exact ⟨front.reverse, by simp⟩

theorem shape_split_iff (cs : List Char) :
    ((∃ rest, cs = '$' :: '\x7b' :: rest) ∧ (∃ front, cs = front ++ ['\x7d']))
      ↔ ∃ body : List Char, cs = '$' :: '\x7b' :: (body ++ ['\x7d']) := by
  constructor
  · rintro ⟨⟨rest, rfl⟩, ⟨front, hf⟩⟩
    cases front with
    | nil =>
      exfalso
      rw [List.nil_append] at hf
      injection hf with h1 h2
      exact absurd h1 (by decide)
    | cons x front1 =>
      cases front1 with
      | nil =>
        exfalso
        rw [List.cons_append, List.nil_append] at hf
        injection hf with h1 h2
        injection h2 with h3 h4
        exact absurd h3 (by decide)
      | cons y front2 =>
        rw [List.cons_append, List.cons_append] at hf
        injection hf with h1 h2
        injection h2 with h3 h4
        exact ⟨front2, by rw [h4]⟩
  · rintro ⟨body, rfl⟩
    exact ⟨⟨body ++ ['\x7d'], rfl⟩, ⟨'$' :: '\x7b' :: body, rfl⟩⟩

theorem string_eq_of_data (a b : String) (h : a.data = b.data) : a = b := by
  cases a with
  | mk d1 =>
    cases b with
    | mk d2 => exact congrArg String.mk h

theorem wrap_data (name : String) :
    ("$\x7b" ++ name ++ "\x7d").data = '$' :: '\x7b' :: (name.data ++ ['\x7d']) := by
  cases name with
  | mk d => rfl

theorem mk_data (s : String) : String.mk s.data = s := by
  cases s with
  | mk d => rfl

theorem extractPropertyRef_fst (s : String) :
    (extractPropertyRef s).1
      = (charsStartsWith s.data ['$', '\x7b'] && charsEndsWith s.data ['\x7d']) := by
  unfold extractPropertyRef
  by_cases h : charsStartsWith s.data ['$', '\x7b'] && charsEndsWith s.data ['\x7d'] <;>
    simp [h]

/-- A raw version string is classified as a property reference iff the whole
string is the dollar-brace opener, a body, and the closing brace. -/
theorem extractPropertyRef_true_iff (s : String) :
    (extractPropertyRef s).1 = true
      ↔ ∃ name : String, s = "$\x7b" ++ name ++ "\x7d" := by
  rw [extractPropertyRef_fst, Bool.and_eq_true, charsStartsWith_pair_iff,
    charsEndsWith_single_iff, shape_split_iff]
  constructor
  · rintro ⟨body, hbody⟩
    refine ⟨String.mk body, string_eq_of_data _ _ ?_⟩
    rw [hbody, wrap_data]
  · rintro ⟨name, rfl⟩
    exact ⟨name.data, wrap_data name⟩

/-- On an exact whole-string property reference, the extracted name is the body
between the outermost delimiters, verbatim. -/
theorem extractPropertyRef_name (name : String) :
    extractPropertyRef ("$\x7b" ++ name ++ "\x7d") = (true, name) := by
  have h1 : charsStartsWith ('$' :: '\x7b' :: (name.data ++ ['\x7d'])) ['$', '\x7b'] = true := by
    simp [charsStartsWith]
  have h2 : charsEndsWith ('$' :: '\x7b' :: (name.data ++ ['\x7d'])) ['\x7d'] = true := by
    show charsStartsWith ('$' :: '\x7b' :: (name.data ++ ['\x7d'])).reverse
      (['\x7d'] : List Char).reverse = true
    rw [show ((['\x7d'] : List Char).reverse) = ['\x7d'] from rfl,
      charsStartsWith_single_iff]
    exact ⟨(name.data.reverse ++ ['\x7b', '$'] : List Char), by simp⟩
  unfold extractPropertyRef
  rw [wrap_data]
  show (if (charsStartsWith ('$' :: '\x7b' :: (name.data ++ ['\x7d'])) ['$', '\x7b']
        && charsEndsWith ('$' :: '\x7b' :: (name.data ++ ['\x7d'])) ['\x7d']) = true then
      ((true : Bool),
        String.mk ((List.drop 2 ('$' :: '\x7b' :: (name.data ++ ['\x7d']))).dropLast))
    else ((false : Bool), "")) = (true, name)
  rw [h1, h2]
  simp [List.dropLast_concat, mk_data]

/-- C2: the analyzer's dependency record classifies a raw version string as
property-based iff the whole string has the exact dollar-brace shape, and then
records the text between the outermost delimiters verbatim as the property
name; a string merely containing a reference, and the empty string, are
literals, nested references are unwrapped only once, and internal whitespace is
preserved. -/
theorem claim2_propertyReferenceShape :
    (∀ (dep : Dependency) (r : AnalysisResult),
      ∃ info : DependencyInfo,
        lookupAssoc (analyzeDependency dep r).dependencies dep.gavKey = some info
        ∧ info.usesProperty = (extractPropertyRef dep.version).1
        ∧ info.propertyName = (extractPropertyRef dep.version).2
        ∧ ((extractPropertyRef dep.version).1 = true
            ↔ ∃ name : String, dep.version = "$\x7b" ++ name ++ "\x7d")
        ∧ (∀ name : String, dep.version = "$\x7b" ++ name ++ "\x7d"
            → (extractPropertyRef dep.version).2 = name))
    ∧ extractPropertyRef "" = (false, "")
    ∧ extractPropertyRef "1.0-$\x7bsuffix\x7d" = (false, "")
    ∧ extractPropertyRef "$\x7b$\x7bnested\x7d\x7d" = (true, "$\x7bnested\x7d")
    ∧ extractPropertyRef "$\x7b prop.with.spaces \x7d" = (true, " prop.with.spaces ") := by
  refine ⟨?_, rfl, rfl, rfl, rfl⟩
  intro dep r
  refine ⟨⟨dep.groupID, dep.artifactID, dep.version,
    (extractPropertyRef dep.version).1, (extractPropertyRef dep.version).2⟩,
    ?_, rfl, rfl, extractPropertyRef_true_iff _, ?_⟩
  · exact lookupAssoc_upsert_self r.dependencies dep.gavKey _
  · intro name h
    rw [h, extractPropertyRef_name]

/-- C2 witness: a concrete whole-string reference is recognized with its name
extracted verbatim. -/
theorem claim2_witness :
    (extractPropertyRef "$\x7bmy.prop\x7d").1 = true
    ∧ (extractPropertyRef "$\x7bmy.prop\x7d").2 = "my.prop" := by
  obtain ⟨info, h1, h2, h3, h4, h5⟩ :=
    claim2_propertyReferenceShape.1 ⟨"test", "test", "$\x7bmy.prop\x7d", "", ""⟩ ⟨[], [], [], []⟩
  exact ⟨h4.mpr ⟨"my.prop", rfl⟩, h5 "my.prop" rfl⟩

/-! Segmented version comparator lemmas. -/

theorem swap_eq_lt_iff (o : Ordering) : o.swap = Ordering.lt ↔ o = Ordering.gt := by
  cases o <;> decide

theorem swap_eq_gt_iff (o : Ordering) : o.swap = Ordering.gt ↔ o = Ordering.lt := by
  cases o <;> decide

theorem compareChars_self (a : List Char) : compareChars a a = Ordering.eq := by
  induction a with
  | nil => rfl
  | cons c cs ih => simp [compareChars, lt_irrefl, ih]

theorem compareSeg_self (a : List Char) : compareSeg a a = Ordering.eq := by
  unfold compareSeg
  by_cases h : (segIsNumeric a && segIsNumeric a) = true
  · rw [if_pos h, if_neg (Nat.lt_irrefl _), if_neg (Nat.lt_irrefl _)]
  · rw [if_neg h]
    exact compareChars_self a

theorem compareSegLists_self (l : List (List Char)) : compareSegLists l l = Ordering.eq := by
  induction l with
  | nil => rfl
  | cons a as ih => simp [compareSegLists, compareSeg_self, ih]

theorem compareVersions_self (v : String) : compareVersions v v = Ordering.eq := by
  unfold compareVersions
  exact compareSegLists_self _

theorem compareChars_swap (a b : List Char) : compareChars a b = (compareChars b a).swap := by
  induction a generalizing b with
  | nil => cases b <;> rfl
  | cons c cs ih =>
    cases b with
    | nil => rfl
    | cons d ds =>
      simp only [compareChars]
      rcases lt_trichotomy c d with h | h | h
      · rw [if_pos h, if_neg (lt_asymm h), if_pos h]
        rfl
      · subst h
        rw [if_neg (lt_irrefl c), if_neg (lt_irrefl c), if_neg (lt_irrefl c),
          if_neg (lt_irrefl c)]
        exact ih ds
      · rw [if_neg (lt_asymm h), if_pos h, if_pos h]
        rfl

theorem compareSeg_swap (a b : List Char) : compareSeg a b = (compareSeg b a).swap := by
  unfold compareSeg
  by_cases h : (segIsNumeric a && segIsNumeric b) = true
  · have h2 : (segIsNumeric b && segIsNumeric a) = true := by
      rw [Bool.and_comm]
      exact h
    rw [if_pos h, if_pos h2]
    rcases lt_trichotomy (segToNat a) (segToNat b) with hl | hl | hl
    · rw [if_pos hl, if_neg (Nat.lt_asymm hl), if_pos hl]
      rfl
    · rw [hl, if_neg (Nat.lt_irrefl _), if_neg (Nat.lt_irrefl _)]
      rfl
    · rw [if_neg (Nat.lt_asymm hl), if_pos hl, if_pos hl]
      rfl
  · have h2 : ¬ (segIsNumeric b && segIsNumeric a) = true := by
      rw [Bool.and_comm]
      exact h
    rw [if_neg h, if_neg h2]
    exact compareChars_swap a b

theorem compareSegLists_swap (l1 l2 : List (List Char)) :
    compareSegLists l1 l2 = (compareSegLists l2 l1).swap := by
  induction l1 generalizing l2 with
  | nil => cases l2 <;> rfl
  | cons a as ih =>
    cases l2 with
    | nil => rfl
    | cons b bs =>
      simp only [compareSegLists]
      rw [compareSeg_swap a b]
      cases hc : compareSeg b a with
      | lt => rfl
      | eq => exact ih bs
      | gt => rfl

theorem compareVersions_swap (v1 v2 : String) :
    compareVersions v1 v2 = (compareVersions v2 v1).swap :=
  compareSegLists_swap _ _

theorem foldMaxVersion_mem (best : String) (vs : List String) :
    foldMaxVersion best vs ∈ best :: vs := by
  induction vs generalizing best with
  | nil => simp [foldMaxVersion]
  | cons v vs ih =>
    simp only [foldMaxVersion]
    by_cases h : compareVersions v best = Ordering.gt
    · rw [if_pos h]
      rcases List.mem_cons.mp (ih v) with h1 | h1
      · exact List.mem_cons_of_mem _ (by rw [h1]; exact List.mem_cons_self _ _)
      · exact List.mem_cons_of_mem _ (List.mem_cons_of_mem _ h1)
    · rw [if_neg h]
      rcases List.mem_cons.mp (ih best) with h1 | h1
      · rw [h1]
        exact List.mem_cons_self _ _
      · exact List.mem_cons_of_mem _ (List.mem_cons_of_mem _ h1)

theorem foldMaxVersion_ge (S : List String)
    (htrans : ∀ x ∈ S, ∀ y ∈ S, ∀ z ∈ S,
      compareVersions x y ≠ Ordering.lt → compareVersions y z ≠ Ordering.lt →
      compareVersions x z ≠ Ordering.lt) :
    ∀ (vs : List String) (best : String), best ∈ S → (∀ v ∈ vs, v ∈ S) →
      ∀ x ∈ best :: vs, compareVersions (foldMaxVersion best vs) x ≠ Ordering.lt := by
  intro vs
  induction vs with
  | nil =>
    intro best _ _ x hx
    rcases List.mem_cons.mp hx with h1 | h1
    · rw [h1]
      simp [foldMaxVersion, compareVersions_self]
    · simp at h1
  | cons v vs ih =>
    intro best hb hvs x hx
    simp only [foldMaxVersion]
    have hv : v ∈ S := hvs v (List.mem_cons_self _ _)
    have hvs' : ∀ w ∈ vs, w ∈ S := fun w hw => hvs w (List.mem_cons_of_mem _ hw)
    by_cases h : compareVersions v best = Ordering.gt
    · rw [if_pos h]
      have hres := ih v hv hvs'
      have hM : foldMaxVersion v vs ∈ S := by
        rcases List.mem_cons.mp (foldMaxVersion_mem v vs) with hm | hm
        · rw [hm]
          exact hv
        · exact hvs' _ hm
      rcases List.mem_cons.mp hx with h1 | h1
      · subst h1
        have h1' : compareVersions (foldMaxVersion v vs) v ≠ Ordering.lt :=
          hres v (List.mem_cons_self _ _)
        have h2' : compareVersions v x ≠ Ordering.lt := by
          rw [h]
          intro hc
          cases hc
        exact htrans _ hM _ hv _ hb h1' h2'
      · rcases List.mem_cons.mp h1 with h2 | h2
        · rw [h2]
          exact hres _ (List.mem_cons_self _ _)
        · exact hres _ (List.mem_cons_of_mem _ h2)
    · rw [if_neg h]
      have hres := ih best hb hvs'
      have hM : foldMaxVersion best vs ∈ S := by
        rcases List.mem_cons.mp (foldMaxVersion_mem best vs) with hm | hm
        · rw [hm]
          exact hb
        · exact hvs' _ hm
      rcases List.mem_cons.mp hx with h1 | h1
      · rw [h1]
        exact hres _ (List.mem_cons_self _ _)
      · rcases List.mem_cons.mp h1 with h2 | h2
        · subst h2
          have h1' : compareVersions (foldMaxVersion best vs) best ≠ Ordering.lt :=
            hres _ (List.mem_cons_self _ _)
          have h2' : compareVersions best x ≠ Ordering.lt := by
            rw [compareVersions_swap best x]
            intro hc
            exact h ((swap_eq_lt_iff _).mp hc)
          exact htrans _ hM _ hb _ hv h1' h2'
        · exact hres _ (List.mem_cons_of_mem _ h2)

/-- C3 (amended): the selected optimal BOM version is always one of the
requested versions, and whenever the segmented comparator's at-least relation
is transitive across the requested versions it is the maximum (no requested
version compares greater); the two concrete selections of the test suite hold. -/
theorem claim3_optimalVersionSelection :
    (∀ reqs : List (String × String), reqs ≠ [] →
      ∃ e ∈ reqs, calculateOptimalBOMVersion reqs = e.2)
    ∧ (∀ reqs : List (String × String),
      (∀ x ∈ reqs, ∀ y ∈ reqs, ∀ z ∈ reqs,
        compareVersions x.2 y.2 ≠ Ordering.lt → compareVersions y.2 z.2 ≠ Ordering.lt →
        compareVersions x.2 z.2 ≠ Ordering.lt) →
      ∀ e ∈ reqs, compareVersions e.2 (calculateOptimalBOMVersion reqs) ≠ Ordering.gt)
    ∧ calculateOptimalBOMVersion [("a", "4.1.100.Final"), ("b", "4.1.118.Final")]
        = "4.1.118.Final"
    ∧ calculateOptimalBOMVersion [("a", "1.0.0"), ("b", "2.0.0"), ("c", "1.5.0")]
        = "2.0.0" := by
  refine ⟨?_, ?_, rfl, rfl⟩
  · intro reqs hne
    cases reqs with
    | nil => exact absurd rfl hne
    | cons q rest =>
      rcases List.mem_cons.mp
          (foldMaxVersion_mem q.2 (rest.map (fun e => e.2))) with h1 | h1
      · exact ⟨q, List.mem_cons_self _ _, h1⟩
      · obtain ⟨p, hp, hp2⟩ := List.mem_map.mp h1
        exact ⟨p, List.mem_cons_of_mem _ hp, hp2.symm⟩
  · intro reqs htrans e he
    cases reqs with
    | nil => simp at he
    | cons q rest =>
      have hS : ∀ x, x ∈ q.2 :: rest.map (fun e => e.2) ↔
          ∃ p ∈ q :: rest, p.2 = x := by
        intro x
        constructor
        · intro hx
          rcases List.mem_cons.mp hx with h1 | h1
          · exact ⟨q, List.mem_cons_self _ _, h1.symm⟩
          · obtain ⟨p, hp, hp2⟩ := List.mem_map.mp h1
            exact ⟨p, List.mem_cons_of_mem _ hp, hp2⟩
        · rintro ⟨p, hp, rfl⟩
          rcases List.mem_cons.mp hp with h1 | h1
          · rw [h1]
            exact List.mem_cons_self _ _
          · exact List.mem_cons_of_mem _ (List.mem_map.mpr ⟨p, h1, rfl⟩)
      have htrans' : ∀ x ∈ q.2 :: rest.map (fun e => e.2),
          ∀ y ∈ q.2 :: rest.map (fun e => e.2),
          ∀ z ∈ q.2 :: rest.map (fun e => e.2),
          compareVersions x y ≠ Ordering.lt → compareVersions y z ≠ Ordering.lt →
          compareVersions x z ≠ Ordering.lt := by
        intro x hx y hy z hz
        obtain ⟨px, hpx, hpx2⟩ := (hS x).mp hx
        obtain ⟨py, hpy, hpy2⟩ := (hS y).mp hy
        obtain ⟨pz, hpz, hpz2⟩ := (hS z).mp hz
        rw [← hpx2, ← hpy2, ← hpz2]
        exact htrans px hpx py hpy pz hpz
      have hge := foldMaxVersion_ge _ htrans' (rest.map (fun e => e.2)) q.2
        (List.mem_cons_self _ _) (fun v hv => List.mem_cons_of_mem _ hv)
        e.2 ((hS e.2).mpr ⟨e, he, rfl⟩)
      intro hc
      apply hge
      rw [compareVersions_swap]
      exact (swap_eq_lt_iff _).mpr hc

/-- C3 counterexample: with mixed numeric and non-numeric single segments the
segmented comparator is cyclic, so the selected version need not be a maximum:
here the requested version "10" still compares greater than the selected "9". -/
theorem claim3_counterexample :
    calculateOptimalBOMVersion [("a", "10"), ("b", "10x"), ("c", "9")] = "9"
    ∧ compareVersions "10"
        (calculateOptimalBOMVersion [("a", "10"), ("b", "10x"), ("c", "9")])
        = Ordering.gt := by
  exact ⟨rfl, rfl⟩

/-- C3 witness: on the netty versions the comparator is transitive and the
selection is the maximum. -/
theorem claim3_witness :
    (∃ e ∈ [("a", "4.1.100.Final"), ("b", "4.1.118.Final")],
      calculateOptimalBOMVersion [("a", "4.1.100.Final"), ("b", "4.1.118.Final")] = e.2)
    ∧ ∀ e ∈ [("a", "4.1.100.Final"), ("b", "4.1.118.Final")],
        compareVersions e.2
          (calculateOptimalBOMVersion [("a", "4.1.100.Final"), ("b", "4.1.118.Final")])
          ≠ Ordering.gt := by
  constructor
  · exact claim3_optimalVersionSelection.1 _ (by decide)
  · exact claim3_optimalVersionSelection.2.1 _ (by decide)

/-! Deduplication and conflict-detector lemmas. -/

theorem mem_dedupFirstAux (l : List String) :
    ∀ (seen : List String) (x : String),
      x ∈ dedupFirstAux l seen ↔ x ∈ l ∧ ¬ x ∈ seen := by
  induction l with
  | nil => intro seen x; simp [dedupFirstAux]
  | cons y ys ih =>
    intro seen x
    by_cases h : seen.any (fun z => z == y) = true
    · have hy : y ∈ seen := by
        obtain ⟨z, hz, hzy⟩ := List.any_eq_true.mp h
        rwa [← eq_of_beq hzy]
      rw [dedupFirstAux, if_pos h, ih seen x]
      constructor
      · rintro ⟨h1, h2⟩
        exact ⟨List.mem_cons_of_mem _ h1, h2⟩
      · rintro ⟨h1, h2⟩
        rcases List.mem_cons.mp h1 with h3 | h3
        · exact absurd (h3 ▸ hy) h2
        · exact ⟨h3, h2⟩
    · have hy : ¬ y ∈ seen := by
        intro hc
        exact h (List.any_eq_true.mpr ⟨y, hc, by simp⟩)
      rw [dedupFirstAux, if_neg h]
      constructor
      · intro h1
        rcases List.mem_cons.mp h1 with h2 | h2
        · exact ⟨h2 ▸ List.mem_cons_self _ _, h2 ▸ hy⟩
        · obtain ⟨h3, h4⟩ := (ih _ x).mp h2
          exact ⟨List.mem_cons_of_mem _ h3, fun hc => h4 (List.mem_cons_of_mem _ hc)⟩
      · rintro ⟨h1, h2⟩
        rcases List.mem_cons.mp h1 with h3 | h3
        · exact h3 ▸ List.mem_cons_self _ _
        · by_cases hxy : x = y
          · exact hxy ▸ List.mem_cons_self _ _
          · exact List.mem_cons_of_mem _
              ((ih _ x).mpr ⟨h3, by simp [List.mem_cons, hxy, h2]⟩)

theorem not_mem_seen_dedupFirstAux (l : List String) :
    ∀ (seen : List String) (x : String), x ∈ dedupFirstAux l seen → ¬ x ∈ seen :=
  fun seen x h => ((mem_dedupFirstAux l seen x).mp h).2

theorem nodup_dedupFirstAux (l : List String) :
    ∀ seen : List String, (dedupFirstAux l seen).Nodup := by
  induction l with
  | nil => intro seen; simp [dedupFirstAux]
  | cons y ys ih =>
    intro seen
    by_cases h : seen.any (fun z => z == y) = true
    · rw [dedupFirstAux, if_pos h]
      exact ih seen
    · rw [dedupFirstAux, if_neg h]
      refine List.nodup_cons.mpr ⟨?_, ih _⟩
      intro hc
      exact not_mem_seen_dedupFirstAux ys (y :: seen) y hc (List.mem_cons_self _ _)

theorem mem_dedupFirst (l : List String) (x : String) : x ∈ dedupFirst l ↔ x ∈ l := by
  rw [dedupFirst, mem_dedupFirstAux]
  simp

theorem nodup_dedupFirst (l : List String) : (dedupFirst l).Nodup :=
  nodup_dedupFirstAux l []

theorem filterMap_eq_nil_of_none {α β : Type} (f : α → Option β) :
    ∀ l : List α, (∀ y ∈ l, f y = none) → l.filterMap f = []
  | [], _ => rfl
  | y :: ys, h => by
    rw [List.filterMap_cons, h y (List.mem_cons_self _ _)]
    exact filterMap_eq_nil_of_none f ys (fun z hz => h z (List.mem_cons_of_mem _ hz))

theorem filterMap_eq_single_of_nodup {α β : Type} (f : α → Option β) (l : List α)
    (a : α) (c : β) :
    l.Nodup → a ∈ l → (∀ x ∈ l, x ≠ a → f x = none) → f a = some c →
    l.filterMap f = [c] := by
  intro hnd hmem h1 h2
  revert hnd hmem h1
  induction l with
  | nil => intro _ hmem _; simp at hmem
  | cons x xs ih =>
    intro hnd hmem h1
    rcases List.mem_cons.mp hmem with hx | hx
    · subst hx
      rw [List.filterMap_cons, h2]
      have hall : ∀ y ∈ xs, f y = none := by
        intro y hy
        refine h1 y (List.mem_cons_of_mem _ hy) ?_
        intro hya
        exact absurd (hya ▸ hy) (List.nodup_cons.mp hnd).1
      rw [filterMap_eq_nil_of_none f xs hall]
    · have hxa : x ≠ a := by
        intro he
        exact absurd (he ▸ hx) (List.nodup_cons.mp hnd).1
      rw [List.filterMap_cons, h1 x (List.mem_cons_self _ _) hxa]
      exact ih (List.nodup_cons.mp hnd).2 hx
        (fun y hy => h1 y (List.mem_cons_of_mem _ hy))

theorem detect_eq_nil_of_allSame (r : AnalysisResult) (ps : List Patch)
    (h : ∀ g, allSameVersion (ps.filter (fun p => p.groupID == g)) = true) :
    detectVersionConflicts r ps = [] := by
  unfold detectVersionConflicts
  apply filterMap_eq_nil_of_none
  intro g _
  unfold conflictForGroup
  apply if_neg
  rintro ⟨_, h2⟩
  rw [h g] at h2
  cases h2

theorem detect_single_bomConflict (r : AnalysisResult) (ps : List Patch)
    (g : String) (bom : BOMInfo)
    (hbom : findBOMForGroup r g = some bom)
    (h2 : 2 ≤ (ps.filter (fun p => p.groupID == g)).length)
    (hdiff : allSameVersion (ps.filter (fun p => p.groupID == g)) = false)
    (honly : ∀ g2, g2 ≠ g → allSameVersion (ps.filter (fun p => p.groupID == g2)) = true) :
    detectVersionConflicts r ps =
      [⟨g, (ps.filter (fun p => p.groupID == g)).map (fun p => (p.artifactID, p.version)),
        "update_bom", some bom,
        calculateOptimalBOMVersion ((ps.filter (fun p => p.groupID == g)).map
          (fun p => (p.artifactID, p.version)))⟩] := by
  unfold detectVersionConflicts
  apply filterMap_eq_single_of_nodup _ _ g _ (nodup_dedupFirst _)
  · rw [mem_dedupFirst]
    have hpos : 0 < (ps.filter (fun p => p.groupID == g)).length :=
      lt_of_lt_of_le (by norm_num) h2
    obtain ⟨p, hp⟩ := List.exists_mem_of_ne_nil _ (List.length_pos.mp hpos)
    have hmf := List.mem_filter.mp hp
    exact List.mem_map.mpr ⟨p, hmf.1, by simpa using hmf.2⟩
  · intro x _ hxg
    unfold conflictForGroup
    apply if_neg
    rintro ⟨_, hc2⟩
    rw [honly x hxg] at hc2
    cases hc2
  · unfold conflictForGroup
    rw [if_pos ⟨h2, hdiff⟩, hbom]

/-! Per-patch processing lemmas. -/

theorem processAux_cons_none (r : AnalysisResult) (p : Patch) (ps : List Patch)
    (props : List (String × String))
    (h : lookupAssoc r.dependencies p.gavKey = none) :
    processPatchesAux r (p :: ps) props =
      (p :: (processPatchesAux r ps props).1, (processPatchesAux r ps props).2) := by
  simp [processPatchesAux, h]

theorem processAux_cons_direct (r : AnalysisResult) (p : Patch) (ps : List Patch)
    (props : List (String × String)) (info : DependencyInfo)
    (h : lookupAssoc r.dependencies p.gavKey = some info)
    (hup : info.usesProperty = false) :
    processPatchesAux r (p :: ps) props =
      (p :: (processPatchesAux r ps props).1, (processPatchesAux r ps props).2) := by
  simp [processPatchesAux, h, hup]

theorem processAux_cons_staged_skip (r : AnalysisResult) (p : Patch) (ps : List Patch)
    (props : List (String × String)) (info : DependencyInfo)
    (h : lookupAssoc r.dependencies p.gavKey = some info)
    (hup : info.usesProperty = true)
    (hst : (lookupAssoc props info.propertyName).isSome = true) :
    processPatchesAux r (p :: ps) props = processPatchesAux r ps props := by
  simp [processPatchesAux, h, hup, hst]

theorem processAux_cons_staged_new (r : AnalysisResult) (p : Patch) (ps : List Patch)
    (props : List (String × String)) (info : DependencyInfo)
    (h : lookupAssoc r.dependencies p.gavKey = some info)
    (hup : info.usesProperty = true)
    (hst : (lookupAssoc props info.propertyName).isSome = false) :
    processPatchesAux r (p :: ps) props =
      processPatchesAux r ps (props ++ [(info.propertyName, p.version)]) := by
  simp [processPatchesAux, h, hup, hst]

theorem processAux_fst_subset (r : AnalysisResult) (ps : List Patch) :
    ∀ (props : List (String × String)) (q : Patch),
      q ∈ (processPatchesAux r ps props).1 → q ∈ ps := by
  induction ps with
  | nil => intro props q hq; simp [processPatchesAux] at hq
  | cons p ps ih =>
    intro props q hq
    cases hlk : lookupAssoc r.dependencies p.gavKey with
    | none =>
      rw [processAux_cons_none r p ps props hlk] at hq
      rcases List.mem_cons.mp hq with h1 | h1
      · exact h1 ▸ List.mem_cons_self _ _
      · exact List.mem_cons_of_mem _ (ih props q h1)
    | some info =>
      cases hup : info.usesProperty with
      | false =>
        rw [processAux_cons_direct r p ps props info hlk hup] at hq
        rcases List.mem_cons.mp hq with h1 | h1
        · exact h1 ▸ List.mem_cons_self _ _
        · exact List.mem_cons_of_mem _ (ih props q h1)
      | true =>
        cases hst : (lookupAssoc props info.propertyName).isSome with
        | true =>
          rw [processAux_cons_staged_skip r p ps props info hlk hup hst] at hq
          exact List.mem_cons_of_mem _ (ih props q hq)
        | false =>
          rw [processAux_cons_staged_new r p ps props info hlk hup hst] at hq
          exact List.mem_cons_of_mem _ (ih _ q hq)

theorem processAux_fst_staged_none (r : AnalysisResult) (ps : List Patch) :
    ∀ (props : List (String × String)) (q : Patch),
      q ∈ (processPatchesAux r ps props).1 → stagedName r q = none := by
  induction ps with
  | nil => intro props q hq; simp [processPatchesAux] at hq
  | cons p ps ih =>
    intro props q hq
    cases hlk : lookupAssoc r.dependencies p.gavKey with
    | none =>
      rw [processAux_cons_none r p ps props hlk] at hq
      rcases List.mem_cons.mp hq with h1 | h1
      · rw [h1]
        simp [stagedName, hlk]
      · exact ih props q h1
    | some info =>
      cases hup : info.usesProperty with
      | false =>
        rw [processAux_cons_direct r p ps props info hlk hup] at hq
        rcases List.mem_cons.mp hq with h1 | h1
        · rw [h1]
          simp [stagedName, hlk, hup]
        · exact ih props q h1
      | true =>
        cases hst : (lookupAssoc props info.propertyName).isSome with
        | true =>
          rw [processAux_cons_staged_skip r p ps props info hlk hup hst] at hq
          exact ih props q hq
        | false =>
          rw [processAux_cons_staged_new r p ps props info hlk hup hst] at hq
          exact ih _ q hq

theorem processAux_fst_of_staged_none (r : AnalysisResult) (ps : List Patch) :
    ∀ (props : List (String × String)) (p : Patch),
      p ∈ ps → stagedName r p = none → p ∈ (processPatchesAux r ps props).1 := by
  induction ps with
  | nil => intro props p hp _; simp at hp
  | cons q ps ih =>
    intro props p hp hstage
    rcases List.mem_cons.mp hp with h1 | h1
    · subst h1
      cases hlk : lookupAssoc r.dependencies p.gavKey with
      | none =>
        rw [processAux_cons_none r p ps props hlk]
        exact List.mem_cons_self _ _
      | some info =>
        cases hup : info.usesProperty with
        | false =>
          rw [processAux_cons_direct r p ps props info hlk hup]
          exact List.mem_cons_self _ _
        | true =>
          exfalso
          simp [stagedName, hlk, hup] at hstage
    · cases hlk : lookupAssoc r.dependencies q.gavKey with
      | none =>
        rw [processAux_cons_none r q ps props hlk]
        exact List.mem_cons_of_mem _ (ih props p h1 hstage)
      | some info =>
        cases hup : info.usesProperty with
        | false =>
          rw [processAux_cons_direct r q ps props info hlk hup]
          exact List.mem_cons_of_mem _ (ih props p h1 hstage)
        | true =>
          cases hst : (lookupAssoc props info.propertyName).isSome with
          | true =>
            rw [processAux_cons_staged_skip r q ps props info hlk hup hst]
            exact ih props p h1 hstage
          | false =>
            rw [processAux_cons_staged_new r q ps props info hlk hup hst]
            exact ih _ p h1 hstage

theorem processAux_snd_mem (r : AnalysisResult) (ps : List Patch) :
    ∀ (props : List (String × String)) (e : String × String),
      e ∈ (processPatchesAux r ps props).2 →
      e ∈ props ∨ ∃ q ∈ ps, stagedName r q = some e.1 ∧ e.2 = q.version := by
  induction ps with
  | nil =>
    intro props e he
    exact Or.inl (by simpa [processPatchesAux] using he)
  | cons p ps ih =>
    intro props e he
    cases hlk : lookupAssoc r.dependencies p.gavKey with
    | none =>
      rw [processAux_cons_none r p ps props hlk] at he
      rcases ih props e he with h1 | ⟨q, hq, hq2, hq3⟩
      · exact Or.inl h1
      · exact Or.inr ⟨q, List.mem_cons_of_mem _ hq, hq2, hq3⟩
    | some info =>
      cases hup : info.usesProperty with
      | false =>
        rw [processAux_cons_direct r p ps props info hlk hup] at he
        rcases ih props e he with h1 | ⟨q, hq, hq2, hq3⟩
        · exact Or.inl h1
        · exact Or.inr ⟨q, List.mem_cons_of_mem _ hq, hq2, hq3⟩
      | true =>
        cases hst : (lookupAssoc props info.propertyName).isSome with
        | true =>
          rw [processAux_cons_staged_skip r p ps props info hlk hup hst] at he
          rcases ih props e he with h1 | ⟨q, hq, hq2, hq3⟩
          · exact Or.inl h1
          · exact Or.inr ⟨q, List.mem_cons_of_mem _ hq, hq2, hq3⟩
        | false =>
          rw [processAux_cons_staged_new r p ps props info hlk hup hst] at he
          rcases ih _ e he with h1 | ⟨q, hq, hq2, hq3⟩
          · rcases List.mem_append.mp h1 with h2 | h2
            · exact Or.inl h2
            · refine Or.inr ⟨p, List.mem_cons_self _ _, ?_, ?_⟩
              · have he2 : e = (info.propertyName, p.version) := by simpa using h2
                rw [he2]
                simp [stagedName, hlk, hup]
              · have he2 : e = (info.propertyName, p.version) := by simpa using h2
                rw [he2]
          · exact Or.inr ⟨q, List.mem_cons_of_mem _ hq, hq2, hq3⟩

theorem isSome_false_eq_none {α : Type} {o : Option α} (h : o.isSome = false) :
    o = none := by
  cases o with
  | none => rfl
  | some v => simp at h

theorem lookupAssoc_append_single_self {β : Type} (props : List (String × β))
    (k : String) (v : β) (h : lookupAssoc props k = none) :
    lookupAssoc (props ++ [(k, v)]) k = some v := by
  rw [lookupAssoc_append, h]
  simp [lookupAssoc]

theorem lookupAssoc_append_single_ne {β : Type} (props : List (String × β))
    (k : String) (v : β) (n : String) (h : ¬ k = n) :
    lookupAssoc (props ++ [(k, v)]) n = lookupAssoc props n := by
  rw [lookupAssoc_append]
  have h2 : lookupAssoc [(k, v)] n = none := by simp [lookupAssoc, h]
  rw [h2]
  cases hq : lookupAssoc props n <;> rfl

theorem find?_cons_neg {α : Type} (f : α → Bool) (a : α) (l : List α)
    (h : ¬ f a = true) : (a :: l).find? f = l.find? f :=
  List.find?_cons_of_neg l h

theorem find?_cons_pos {α : Type} (f : α → Bool) (a : α) (l : List α)
    (h : f a = true) : (a :: l).find? f = some a :=
  List.find?_cons_of_pos l h

/-- The staged property updates bind each property name to the version of the
first patch in input order that stages that name. -/
theorem processAux_snd_lookup (r : AnalysisResult) (ps : List Patch) :
    ∀ (props : List (String × String)) (n : String),
      lookupAssoc (processPatchesAux r ps props).2 n =
        match lookupAssoc props n with
        | some v => some v
        | none =>
          (ps.find? (fun p => stagedName r p == some n)).map (fun p => p.version) := by
  induction ps with
  | nil =>
    intro props n
    show lookupAssoc props n = _
    cases h : lookupAssoc props n <;> simp [h]
  | cons p ps ih =>
    intro props n
    cases hlk : lookupAssoc r.dependencies p.gavKey with
    | none =>
      have hstage : stagedName r p = none := by simp [stagedName, hlk]
      have hpred : ¬ ((stagedName r p == some n) = true) := by simp [hstage]
      rw [processAux_cons_none r p ps props hlk]
      show lookupAssoc (processPatchesAux r ps props).2 n = _
      rw [ih props n, find?_cons_neg (fun q => stagedName r q == some n) p ps hpred]
    | some info =>
      cases hup : info.usesProperty with
      | false =>
        have hstage : stagedName r p = none := by simp [stagedName, hlk, hup]
        have hpred : ¬ ((stagedName r p == some n) = true) := by simp [hstage]
        rw [processAux_cons_direct r p ps props info hlk hup]
        show lookupAssoc (processPatchesAux r ps props).2 n = _
        rw [ih props n, find?_cons_neg (fun q => stagedName r q == some n) p ps hpred]
      | true =>
        have hstage : stagedName r p = some info.propertyName := by
          simp [stagedName, hlk, hup]
        cases hst : (lookupAssoc props info.propertyName).isSome with
        | true =>
          rw [processAux_cons_staged_skip r p ps props info hlk hup hst, ih props n]
          by_cases hn : info.propertyName = n
          · obtain ⟨v, hv⟩ := Option.isSome_iff_exists.mp (hn ▸ hst)
            rw [hv]
          · have hpred : ¬ ((stagedName r p == some n) = true) := by
              simp [hstage, hn]
            rw [find?_cons_neg (fun q => stagedName r q == some n) p ps hpred]
        | false =>
          have hnone : lookupAssoc props info.propertyName = none :=
            isSome_false_eq_none hst
          rw [processAux_cons_staged_new r p ps props info hlk hup hst, ih _ n]
          by_cases hn : info.propertyName = n
          · subst hn
            rw [lookupAssoc_append_single_self _ _ _ hnone, hnone,
              find?_cons_pos (fun q => stagedName r q == some info.propertyName) p ps
                (by simp [hstage])]
            rfl
          · rw [lookupAssoc_append_single_ne props info.propertyName p.version n hn]
            have hpred : ¬ ((stagedName r p == some n) = true) := by
              simp [hstage, hn]
            rw [find?_cons_neg (fun q => stagedName r q == some n) p ps hpred]

theorem lookupAssoc_none_filter_nil {β : Type} (m : List (String × β)) (n : String)
    (h : lookupAssoc m n = none) : m.filter (fun e => e.1 == n) = [] := by
  induction m with
  | nil => rfl
  | cons e rest ih =>
    obtain ⟨k, v⟩ := e
    cases hk : (k == n) with
    | true =>
      exfalso
      simp [lookupAssoc, hk] at h
    | false =>
      have h2 : lookupAssoc rest n = none := by
        rw [lookupAssoc, if_neg (by simp [hk])] at h
        exact h
      rw [List.filter_cons, if_neg (by simp [hk])]
      exact ih h2

theorem lookupAssoc_some_filter_pos {β : Type} (m : List (String × β)) (n : String)
    (v : β) (h : lookupAssoc m n = some v) :
    1 ≤ (m.filter (fun e => e.1 == n)).length := by
  by_contra hc
  push_neg at hc
  have h0 : m.filter (fun e => e.1 == n) = [] :=
    List.length_eq_zero.mp (Nat.lt_one_iff.mp hc)
  have h1 : lookupAssoc m n = none := by
    rw [lookupAssoc_eq_none_iff]
    intro e he hekey
    have h2 : e ∈ m.filter (fun e => e.1 == n) :=
      List.mem_filter.mpr ⟨he, by simp [hekey]⟩
    rw [h0] at h2
    simp at h2
  rw [h] at h1
  cases h1

theorem processAux_snd_count (r : AnalysisResult) (ps : List Patch) :
    ∀ (props : List (String × String)) (n : String),
      (props.filter (fun e => e.1 == n)).length ≤ 1 →
      ((processPatchesAux r ps props).2.filter (fun e => e.1 == n)).length ≤ 1 := by
  induction ps with
  | nil => intro props n h; exact h
  | cons p ps ih =>
    intro props n h
    cases hlk : lookupAssoc r.dependencies p.gavKey with
    | none =>
      rw [processAux_cons_none r p ps props hlk]
      exact ih props n h
    | some info =>
      cases hup : info.usesProperty with
      | false =>
        rw [processAux_cons_direct r p ps props info hlk hup]
        exact ih props n h
      | true =>
        cases hst : (lookupAssoc props info.propertyName).isSome with
        | true =>
          rw [processAux_cons_staged_skip r p ps props info hlk hup hst]
          exact ih props n h
        | false =>
          rw [processAux_cons_staged_new r p ps props info hlk hup hst]
          apply ih
          rw [List.filter_append, List.length_append]
          cases hn : (info.propertyName == n) with
          | true =>
            have heq : info.propertyName = n := eq_of_beq hn
            have hnone : lookupAssoc props info.propertyName = none :=
              isSome_false_eq_none hst
            have h0 : props.filter (fun e => e.1 == n) = [] :=
              lookupAssoc_none_filter_nil props n (heq ▸ hnone)
            rw [h0]
            simp [hn]
          | false =>
            have h1 : ([((info.propertyName : String), p.version)].filter
                (fun e => e.1 == n)) = [] := by
              simp [hn]
            rw [h1]
            simpa using h

theorem filter_true_eq {α : Type} : ∀ l : List α, l.filter (fun _ => true) = l
  | [] => rfl
  | x :: xs => by simp [List.filter_cons, filter_true_eq xs]

theorem remaining_of_no_bomConflicts (r : AnalysisResult) (ps : List Patch)
    (h : bomConflictsOf r ps = []) : remainingPatches r ps = ps := by
  unfold remainingPatches
  rw [h]
  have hpred : (fun p : Patch =>
      !((([] : List VersionConflict)).any (fun c => c.groupID == p.groupID)))
      = fun _ => true := by
    funext p
    rfl
  rw [hpred]
  exact filter_true_eq ps

theorem patchStrategy_of_noBomConflicts (r : AnalysisResult) (ps : List Patch)
    (h : bomConflictsOf r ps = []) :
    PatchStrategy r ps = processPatches r ps := by
  unfold PatchStrategy bomPatchesOf
  rw [h, remaining_of_no_bomConflicts r ps h]
  rfl

theorem bom_groupID_of_find (r : AnalysisResult) (g : String) (bom : BOMInfo)
    (hbom : findBOMForGroup r g = some bom) : bom.groupID = g := by
  have h := List.find?_some hbom
  exact eq_of_beq h

/-- C1: when a group has at least two patches with non-identical requested
versions and the analysis holds a BOM for that group (and no other group
conflicts), PatchStrategy resolves the group into exactly one direct patch —
the BOM artifact at the optimal version with type pom and scope import — the
group's own patches are excluded from the output, and the other patches are
processed by the ordinary per-patch step; when every group's requested versions
are identical, no BOM patch is synthesized and all patches are processed
individually (every direct patch being one of the inputs). -/
theorem claim1_bomConflictConsolidation :
    (∀ (r : AnalysisResult) (ps : List Patch) (g : String) (bom : BOMInfo),
      findBOMForGroup r g = some bom →
      2 ≤ (ps.filter (fun p => p.groupID == g)).length →
      allSameVersion (ps.filter (fun p => p.groupID == g)) = false →
      (∀ g2, g2 ≠ g → allSameVersion (ps.filter (fun p => p.groupID == g2)) = true) →
      PatchStrategy r ps =
        (⟨bom.groupID, bom.artifactID,
            calculateOptimalBOMVersion ((ps.filter (fun p => p.groupID == g)).map
              (fun p => (p.artifactID, p.version))), "pom", "import"⟩
          :: (processPatches r (ps.filter (fun p => !(p.groupID == g)))).1,
         (processPatches r (ps.filter (fun p => !(p.groupID == g)))).2)
      ∧ (PatchStrategy r ps).1.filter (fun p => p.groupID == g)
          = [⟨bom.groupID, bom.artifactID,
              calculateOptimalBOMVersion ((ps.filter (fun p => p.groupID == g)).map
                (fun p => (p.artifactID, p.version))), "pom", "import"⟩]
      ∧ (∀ p ∈ ps, p.groupID = g →
          p ≠ ⟨bom.groupID, bom.artifactID,
              calculateOptimalBOMVersion ((ps.filter (fun p => p.groupID == g)).map
                (fun p => (p.artifactID, p.version))), "pom", "import"⟩ →
          p ∉ (PatchStrategy r ps).1))
    ∧ (∀ (r : AnalysisResult) (ps : List Patch),
      (∀ g, allSameVersion (ps.filter (fun p => p.groupID == g)) = true) →
      PatchStrategy r ps = processPatches r ps
      ∧ ∀ q ∈ (PatchStrategy r ps).1, q ∈ ps) := by
  constructor
  · intro r ps g bom hbom h2 hdiff honly
    have hg : bom.groupID = g := bom_groupID_of_find r g bom hbom
    have hdet := detect_single_bomConflict r ps g bom hbom h2 hdiff honly
    have hbomc : bomConflictsOf r ps =
        [⟨g, (ps.filter (fun p => p.groupID == g)).map (fun p => (p.artifactID, p.version)),
          "update_bom", some bom,
          calculateOptimalBOMVersion ((ps.filter (fun p => p.groupID == g)).map
            (fun p => (p.artifactID, p.version)))⟩] := by
      unfold bomConflictsOf
      rw [hdet]
      rfl
    have hbp : bomPatchesOf r ps =
        [⟨bom.groupID, bom.artifactID,
          calculateOptimalBOMVersion ((ps.filter (fun p => p.groupID == g)).map
            (fun p => (p.artifactID, p.version))), "pom", "import"⟩] := by
      unfold bomPatchesOf
      rw [hbomc]
      rfl
    have hrem : remainingPatches r ps = ps.filter (fun p => !(p.groupID == g)) := by
      unfold remainingPatches
      rw [hbomc]
      apply List.filter_congr
      intro p _
      simp only [List.any_cons, List.any_nil, Bool.or_false]
      by_cases hpg : p.groupID = g
      · rw [hpg]
      · rw [beq_eq_false_iff_ne.mpr (fun he => hpg he.symm),
          beq_eq_false_iff_ne.mpr hpg]
    have hmain : PatchStrategy r ps =
        (⟨bom.groupID, bom.artifactID,
            calculateOptimalBOMVersion ((ps.filter (fun p => p.groupID == g)).map
              (fun p => (p.artifactID, p.version))), "pom", "import"⟩
          :: (processPatches r (ps.filter (fun p => !(p.groupID == g)))).1,
         (processPatches r (ps.filter (fun p => !(p.groupID == g)))).2) := by
      unfold PatchStrategy
      rw [hbp, hrem]
      rfl
    refine ⟨hmain, ?_, ?_⟩
    · rw [hmain]
      show List.filter _ (_ :: _) = _
      rw [List.filter_cons]
      have hcond : ((⟨bom.groupID, bom.artifactID,
          calculateOptimalBOMVersion ((ps.filter (fun p => p.groupID == g)).map
            (fun p => (p.artifactID, p.version))), "pom", "import"⟩ : Patch).groupID == g)
          = true := by
        simp [hg]
      rw [if_pos hcond]
      have hnil : (processPatches r (ps.filter (fun p => !(p.groupID == g)))).1.filter
          (fun p => p.groupID == g) = [] := by
        rw [List.filter_eq_nil_iff]
        intro q hq
        have hq2 := processAux_fst_subset r _ [] q hq
        have hq3 := (List.mem_filter.mp hq2).2
        simp only [Bool.not_eq_true'] at hq3
        simp [hq3]
      rw [hnil]
    · intro p hp hpg hne hmem
      rw [hmain] at hmem
      rcases List.mem_cons.mp hmem with h1 | h1
      · exact hne h1
      · have hq2 := processAux_fst_subset r _ [] p h1
        have hq3 := (List.mem_filter.mp hq2).2
        simp only [Bool.not_eq_true'] at hq3
        rw [hpg] at hq3
        simp at hq3
  · intro r ps hall
    have hdet := detect_eq_nil_of_allSame r ps hall
    have hbomc : bomConflictsOf r ps = [] := by
      unfold bomConflictsOf
      rw [hdet]
      rfl
    have hps := patchStrategy_of_noBomConflicts r ps hbomc
    refine ⟨hps, ?_⟩
    intro q hq
    rw [hps] at hq
    exact processAux_fst_subset r ps [] q hq

/-- The Neo4j-style project of TestNeo4jStyleBOMScenario: a netty BOM managing
three netty artifacts, plus an unrelated junit dependency. -/
def neoProject : Project :=
  { dependencyManagement := some
      [⟨"io.netty", "netty-bom", "4.1.94.Final", "pom", "import"⟩],
    dependencies := some
      [⟨"io.netty", "netty-handler", "4.1.94.Final", "", ""⟩,
       ⟨"io.netty", "netty-codec-http2", "4.1.94.Final", "", ""⟩,
       ⟨"io.netty", "netty-codec-compression", "4.1.94.Final", "", ""⟩,
       ⟨"org.junit.jupiter", "junit-jupiter", "5.8.2", "", ""⟩] }

/-- The inconsistent per-artifact patches of the Neo4j-style scenario. -/
def problemPatches : List Patch :=
  [⟨"io.netty", "netty-codec-http2", "4.1.100.Final", "", ""⟩,
   ⟨"io.netty", "netty-codec-compression", "4.1.118.Final", "", ""⟩,
   ⟨"io.netty", "netty-handler", "4.1.105.Final", "", ""⟩,
   ⟨"org.junit.jupiter", "junit-jupiter", "5.9.0", "", ""⟩]

/-- The consistent patches of the Neo4j-style scenario. -/
def consistentPatches : List Patch :=
  [⟨"io.netty", "netty-codec-http2", "4.1.118.Final", "", ""⟩,
   ⟨"io.netty", "netty-codec-compression", "4.1.118.Final", "", ""⟩,
   ⟨"io.netty", "netty-handler", "4.1.118.Final", "", ""⟩,
   ⟨"org.junit.jupiter", "junit-jupiter", "5.9.0", "", ""⟩]

/-- C1 witness: on the Neo4j-style scenario the conflicting netty patches
collapse to the single netty-bom patch at 4.1.118.Final, and with consistent
versions the patches are processed individually with no BOM patch. -/
theorem claim1_witness :
    (PatchStrategy (analyzedResult neoProject) problemPatches).1.filter
        (fun p => p.groupID == "io.netty")
      = [⟨"io.netty", "netty-bom", "4.1.118.Final", "pom", "import"⟩]
    ∧ PatchStrategy (analyzedResult neoProject) consistentPatches
        = processPatches (analyzedResult neoProject) consistentPatches := by
  have honly : ∀ g2, g2 ≠ "io.netty" →
      allSameVersion (problemPatches.filter (fun p => p.groupID == g2)) = true := by
    intro g2 hg2
    by_cases hj : g2 = "org.junit.jupiter"
    · rw [hj]
      decide
    · have e1 : (("io.netty" : String) == g2) = false :=
        beq_eq_false_iff_ne.mpr (fun he => hg2 he.symm)
      have e2 : (("org.junit.jupiter" : String) == g2) = false :=
        beq_eq_false_iff_ne.mpr (fun he => hj he.symm)
      show allSameVersion (List.filter _ _) = true
      simp only [problemPatches, List.filter_cons, e1, e2, Bool.false_eq_true,
        if_false, List.filter_nil]
      rfl
  have hall : ∀ g2,
      allSameVersion (consistentPatches.filter (fun p => p.groupID == g2)) = true := by
    intro g2
    by_cases hn : g2 = "io.netty"
    · rw [hn]
      decide
    · by_cases hj : g2 = "org.junit.jupiter"
      · rw [hj]
        decide
      · have e1 : (("io.netty" : String) == g2) = false :=
          beq_eq_false_iff_ne.mpr (fun he => hn he.symm)
        have e2 : (("org.junit.jupiter" : String) == g2) = false :=
          beq_eq_false_iff_ne.mpr (fun he => hj he.symm)
        show allSameVersion (List.filter _ _) = true
        simp only [consistentPatches, List.filter_cons, e1, e2, Bool.false_eq_true,
          if_false, List.filter_nil]
        rfl
  constructor
  · have h := (claim1_bomConflictConsolidation.1 (analyzedResult neoProject)
      problemPatches "io.netty"
      ⟨"io.netty", "netty-bom", "4.1.94.Final", "pom", "import"⟩
      (by decide) (by decide) (by decide) honly).2.1
    exact h
  · exact ((claim1_bomConflictConsolidation.2 (analyzedResult neoProject)
      consistentPatches) hall).1

theorem find?_isSome_of_mem {α : Type} (f : α → Bool) :
    ∀ (l : List α) (a : α), a ∈ l → f a = true → (l.find? f).isSome = true
  | [], a, ha, _ => by simp at ha
  | q :: l, a, ha, hf => by
    cases hq : f q with
    | true => rw [find?_cons_pos f q l hq]; rfl
    | false =>
      rw [find?_cons_neg f q l (by simp [hq])]
      rcases List.mem_cons.mp ha with h1 | h1
      · rw [h1] at hf
        rw [hq] at hf
        cases hf
      · exact find?_isSome_of_mem f l a h1 hf

/-! The strategy engine never reads the Properties map. -/

theorem conflictForGroup_props_irrel (d : List (String × DependencyInfo))
    (pr pr2 : List (String × String)) (c : List (String × Nat)) (b : List BOMInfo)
    (ps : List Patch) (g : String) :
    conflictForGroup ⟨d, pr2, c, b⟩ ps g = conflictForGroup ⟨d, pr, c, b⟩ ps g := by
  unfold conflictForGroup
  rw [show findBOMForGroup ⟨d, pr2, c, b⟩ g = findBOMForGroup ⟨d, pr, c, b⟩ g from rfl]

theorem detect_props_irrel (d : List (String × DependencyInfo))
    (pr pr2 : List (String × String)) (c : List (String × Nat)) (b : List BOMInfo)
    (ps : List Patch) :
    detectVersionConflicts ⟨d, pr2, c, b⟩ ps = detectVersionConflicts ⟨d, pr, c, b⟩ ps := by
  unfold detectVersionConflicts
  have hf : (conflictForGroup ⟨d, pr2, c, b⟩ ps) = (conflictForGroup ⟨d, pr, c, b⟩ ps) := by
    funext g
    exact conflictForGroup_props_irrel d pr pr2 c b ps g
  rw [hf]

theorem bomConflictsOf_props_irrel (d : List (String × DependencyInfo))
    (pr pr2 : List (String × String)) (c : List (String × Nat)) (b : List BOMInfo)
    (ps : List Patch) :
    bomConflictsOf ⟨d, pr2, c, b⟩ ps = bomConflictsOf ⟨d, pr, c, b⟩ ps := by
  unfold bomConflictsOf
  rw [detect_props_irrel d pr pr2 c b ps]

theorem processAux_props_irrel (d : List (String × DependencyInfo))
    (pr pr2 : List (String × String)) (c : List (String × Nat)) (b : List BOMInfo) :
    ∀ (ps : List Patch) (props : List (String × String)),
      processPatchesAux ⟨d, pr2, c, b⟩ ps props
        = processPatchesAux ⟨d, pr, c, b⟩ ps props := by
  intro ps
  induction ps with
  | nil => intro props; rfl
  | cons p ps ih =>
    intro props
    cases hlk : lookupAssoc d p.gavKey with
    | none =>
      rw [processAux_cons_none ⟨d, pr2, c, b⟩ p ps props hlk,
        processAux_cons_none ⟨d, pr, c, b⟩ p ps props hlk, ih props]
    | some info =>
      cases hup : info.usesProperty with
      | false =>
        rw [processAux_cons_direct ⟨d, pr2, c, b⟩ p ps props info hlk hup,
          processAux_cons_direct ⟨d, pr, c, b⟩ p ps props info hlk hup, ih props]
      | true =>
        cases hst : (lookupAssoc props info.propertyName).isSome with
        | true =>
          rw [processAux_cons_staged_skip ⟨d, pr2, c, b⟩ p ps props info hlk hup hst,
            processAux_cons_staged_skip ⟨d, pr, c, b⟩ p ps props info hlk hup hst,
            ih props]
        | false =>
          rw [processAux_cons_staged_new ⟨d, pr2, c, b⟩ p ps props info hlk hup hst,
            processAux_cons_staged_new ⟨d, pr, c, b⟩ p ps props info hlk hup hst,
            ih _]

/-- C4: with no BOM-backed group resolution, when several patches stage the
same property name the first patch in input order that stages it fixes the
staged value — later conflicting values are discarded — and the output holds
exactly one property patch for that name. -/
theorem claim4_firstStagedValueWins :
    ∀ (r : AnalysisResult) (ps : List Patch) (n : String) (p1 p2 : Patch),
      bomConflictsOf r ps = [] →
      ps.find? (fun p => stagedName r p == some n) = some p1 →
      p2 ∈ ps → stagedName r p2 = some n → p2.version ≠ p1.version →
      lookupAssoc (PatchStrategy r ps).2 n = some p1.version
      ∧ ((PatchStrategy r ps).2.filter (fun e => e.1 == n)).length = 1 := by
  intro r ps n p1 p2 hnobom hfirst _ _ _
  have hps := patchStrategy_of_noBomConflicts r ps hnobom
  rw [hps]
  have hlook : lookupAssoc (processPatches r ps).2 n = some p1.version := by
    have h := processAux_snd_lookup r ps [] n
    rw [hfirst] at h
    exact h
  refine ⟨hlook, ?_⟩
  have hle : ((processPatches r ps).2.filter (fun e => e.1 == n)).length ≤ 1 :=
    processAux_snd_count r ps [] n (by simp)
  have hge := lookupAssoc_some_filter_pos (processPatches r ps).2 n p1.version hlook
  omega

/-- C5: a patch whose dependency record uses a property is never emitted as a
direct patch and always stages that property (whether or not the property is
defined — the engine never reads the Properties map); two patches sharing a
property with identical requested versions yield zero direct patches and one
property patch with that version. -/
theorem claim5_propertyStaging :
    (∀ (r : AnalysisResult) (ps : List Patch) (p : Patch) (info : DependencyInfo),
      bomConflictsOf r ps = [] → p ∈ ps →
      lookupAssoc r.dependencies p.gavKey = some info → info.usesProperty = true →
      p ∉ (PatchStrategy r ps).1
      ∧ (lookupAssoc (PatchStrategy r ps).2 info.propertyName).isSome = true)
    ∧ (∀ (r : AnalysisResult) (ps : List Patch) (props2 : List (String × String)),
      PatchStrategy ⟨r.dependencies, props2, r.propertyUsageCounts, r.boms⟩ ps
        = PatchStrategy r ps)
    ∧ (∀ (r : AnalysisResult) (p1 p2 : Patch) (info1 info2 : DependencyInfo)
        (n v : String),
      lookupAssoc r.dependencies p1.gavKey = some info1 →
      lookupAssoc r.dependencies p2.gavKey = some info2 →
      info1.usesProperty = true → info2.usesProperty = true →
      info1.propertyName = n → info2.propertyName = n →
      p1.version = v → p2.version = v →
      PatchStrategy r [p1, p2] = ([], [(n, v)])) := by
  refine ⟨?_, ?_, ?_⟩
  · intro r ps p info hnobom hp hlk hup
    have hps := patchStrategy_of_noBomConflicts r ps hnobom
    rw [hps]
    have hstage : stagedName r p = some info.propertyName := by
      simp [stagedName, hlk, hup]
    constructor
    · intro hmem
      have h := processAux_fst_staged_none r ps [] p hmem
      rw [hstage] at h
      cases h
    · have h := processAux_snd_lookup r ps [] info.propertyName
      show (lookupAssoc (processPatchesAux r ps []).2 info.propertyName).isSome = true
      rw [h]
      show (Option.map _ (List.find? _ ps)).isSome = true
      have hf := find?_isSome_of_mem (fun q => stagedName r q == some info.propertyName)
        ps p hp (by simp [hstage])
      obtain ⟨q, hq⟩ := Option.isSome_iff_exists.mp hf
      rw [hq]
      rfl
  · intro r ps props2
    cases r with
    | mk d pr c b =>
      show PatchStrategy ⟨d, props2, c, b⟩ ps = PatchStrategy ⟨d, pr, c, b⟩ ps
      unfold PatchStrategy processPatches bomPatchesOf remainingPatches
      rw [bomConflictsOf_props_irrel d pr props2 c b ps,
        processAux_props_irrel d pr props2 c b]
  · intro r p1 p2 info1 info2 n v h1 h2 hu1 hu2 hn1 hn2 hv1 hv2
    have hall : ∀ g, allSameVersion ([p1, p2].filter (fun p => p.groupID == g)) = true := by
      intro g
      by_cases ha : (p1.groupID == g) = true <;> by_cases hb : (p2.groupID == g) = true <;>
        simp [List.filter_cons, ha, hb, allSameVersion, hv1, hv2]
    have hbomc : bomConflictsOf r [p1, p2] = [] := by
      unfold bomConflictsOf
      rw [detect_eq_nil_of_allSame r [p1, p2] hall]
      rfl
    rw [patchStrategy_of_noBomConflicts r [p1, p2] hbomc]
    show processPatchesAux r [p1, p2] [] = ([], [(n, v)])
    rw [processAux_cons_staged_new r p1 [p2] [] info1 h1 hu1 (by simp [lookupAssoc])]
    rw [List.nil_append, hn1, hv1]
    rw [processAux_cons_staged_skip r p2 [] [(n, v)] info2 h2 hu2
      (by rw [hn2]; simp [lookupAssoc])]
    rfl

/-- The analysis state of TestPatchStrategyEdgeCases' "patch for non-existent
property" case: the dependency uses a property that is undefined in the
Properties map. -/
def missingPropResult : AnalysisResult :=
  ⟨[("test:test", ⟨"test", "test", "$\x7bmissing.prop\x7d", true, "missing.prop"⟩)],
   [], [], []⟩

/-- C5 witness: the patch for the undefined-property dependency yields no
direct patch and still stages the property; two same-version patches sharing a
property yield zero direct patches and one property patch. -/
theorem claim5_witness :
    ((⟨"test", "test", "1.0", "", ""⟩ : Patch)
        ∉ (PatchStrategy missingPropResult [⟨"test", "test", "1.0", "", ""⟩]).1
      ∧ (lookupAssoc (PatchStrategy missingPropResult
          [⟨"test", "test", "1.0", "", ""⟩]).2 "missing.prop").isSome = true)
    ∧ PatchStrategy
        ⟨[("com.example:lib1", ⟨"com.example", "lib1", "$\x7bshared.version\x7d",
            true, "shared.version"⟩),
          ("com.example:lib2", ⟨"com.example", "lib2", "$\x7bshared.version\x7d",
            true, "shared.version"⟩)],
         [("shared.version", "1.0.0")], [], []⟩
        [⟨"com.example", "lib1", "2.0.0", "", ""⟩,
         ⟨"com.example", "lib2", "2.0.0", "", ""⟩]
      = ([], [("shared.version", "2.0.0")]) := by
  constructor
  · exact claim5_propertyStaging.1 missingPropResult [⟨"test", "test", "1.0", "", ""⟩]
      ⟨"test", "test", "1.0", "", ""⟩
      ⟨"test", "test", "$\x7bmissing.prop\x7d", true, "missing.prop"⟩
      (by decide) (by decide) (by decide) (by decide)
  · exact claim5_propertyStaging.2.2 _
      ⟨"com.example", "lib1", "2.0.0", "", ""⟩ ⟨"com.example", "lib2", "2.0.0", "", ""⟩
      ⟨"com.example", "lib1", "$\x7bshared.version\x7d", true, "shared.version"⟩
      ⟨"com.example", "lib2", "$\x7bshared.version\x7d", true, "shared.version"⟩
      "shared.version" "2.0.0"
      (by decide) (by decide) (by decide) (by decide) (by decide) (by decide)
      (by decide) (by decide)

/-- Two dependencies sharing the shared.version property, as in the
conflicting-property test cases. -/
def sharedPropResult : AnalysisResult :=
  ⟨[("com.example:lib1",
      ⟨"com.example", "lib1", "$\x7bshared.version\x7d", true, "shared.version"⟩),
    ("com.example:lib2",
      ⟨"com.example", "lib2", "$\x7bshared.version\x7d", true, "shared.version"⟩)],
   [("shared.version", "1.0.0")], [], []⟩

/-- C4 witness: conflicting 2.0.0/3.0.0 requests for the shared property keep
the first staged value, one property patch in total. -/
theorem claim4_witness :
    lookupAssoc (PatchStrategy sharedPropResult
        [⟨"com.example", "lib1", "2.0.0", "", ""⟩,
         ⟨"com.example", "lib2", "3.0.0", "", ""⟩]).2 "shared.version" = some "2.0.0"
    ∧ ((PatchStrategy sharedPropResult
        [⟨"com.example", "lib1", "2.0.0", "", ""⟩,
         ⟨"com.example", "lib2", "3.0.0", "", ""⟩]).2.filter
          (fun e => e.1 == "shared.version")).length = 1 := by
  have h := claim4_firstStagedValueWins sharedPropResult
    [⟨"com.example", "lib1", "2.0.0", "", ""⟩, ⟨"com.example", "lib2", "3.0.0", "", ""⟩]
    "shared.version" ⟨"com.example", "lib1", "2.0.0", "", ""⟩
    ⟨"com.example", "lib2", "3.0.0", "", ""⟩
    (by decide) (by decide) (by decide) (by decide) (by decide)
  exact ⟨h.1, h.2⟩

/-- An analysis with an empty dependency map but a netty BOM, and two unknown
netty patches at different versions. -/
def cexBomResult : AnalysisResult :=
  ⟨[], [], [], [⟨"io.netty", "netty-bom", "4.1.94.Final", "pom", "import"⟩]⟩

/-- C6 counterexample: a patch whose GAV key is absent from the AnalysisResult
is NOT echoed unchanged when its group is resolved by a BOM-backed version
conflict — the group's patches are replaced by the single BOM patch. -/
theorem claim6_counterexample :
    lookupAssoc cexBomResult.dependencies
        (⟨"io.netty", "netty-a", "1.0.0", "", ""⟩ : Patch).gavKey = none
    ∧ (⟨"io.netty", "netty-a", "1.0.0", "", ""⟩ : Patch)
        ∉ (PatchStrategy cexBomResult
            [⟨"io.netty", "netty-a", "1.0.0", "", ""⟩,
             ⟨"io.netty", "netty-b", "2.0.0", "", ""⟩]).1 := by
  constructor
  · rfl
  · decide

/-- C6 (amended): a patch whose GAV key is not present in the AnalysisResult's
dependency map (a nil map included) is echoed unchanged as a direct patch and
stages no property patch, provided its group is not resolved by an update_bom
conflict; every staged property patch comes from some other, property-using
patch. -/
theorem claim6_unknownDependencyEcho :
    ∀ (r : AnalysisResult) (ps : List Patch) (p : Patch),
      p ∈ ps → lookupAssoc r.dependencies p.gavKey = none →
      (∀ c ∈ bomConflictsOf r ps, c.groupID ≠ p.groupID) →
      p ∈ (PatchStrategy r ps).1
      ∧ ∀ e ∈ (PatchStrategy r ps).2,
          ∃ q ∈ ps, q ≠ p ∧ stagedName r q = some e.1 ∧ e.2 = q.version := by
  intro r ps p hp hlk hnog
  have hstage : stagedName r p = none := by simp [stagedName, hlk]
  have hrem : p ∈ remainingPatches r ps := by
    unfold remainingPatches
    apply List.mem_filter.mpr
    refine ⟨hp, ?_⟩
    have hany : (bomConflictsOf r ps).any (fun c => c.groupID == p.groupID) = false := by
      rw [List.any_eq_false]
      intro c hc hb
      exact hnog c hc (eq_of_beq hb)
    rw [hany]
    rfl
  constructor
  · show p ∈ bomPatchesOf r ps ++ (processPatches r (remainingPatches r ps)).1
    apply List.mem_append.mpr
    right
    exact processAux_fst_of_staged_none r (remainingPatches r ps) [] p hrem hstage
  · intro e he
    have he2 : e ∈ (processPatchesAux r (remainingPatches r ps) []).2 := he
    rcases processAux_snd_mem r (remainingPatches r ps) [] e he2 with h1 | ⟨q, hq, hq2, hq3⟩
    · simp at h1
    · have hqps : q ∈ ps := List.mem_of_mem_filter hq
      have hqnep : q ≠ p := by
        intro hqp
        rw [hqp, hstage] at hq2
        cases hq2
      exact ⟨q, hqps, hqnep, hq2, hq3⟩

/-- C6 witness: with nil analysis maps, an unknown patch is echoed unchanged
and nothing is staged. -/
theorem claim6_witness :
    (⟨"test", "test", "1.0", "", ""⟩ : Patch)
      ∈ (PatchStrategy ⟨[], [], [], []⟩ [⟨"test", "test", "1.0", "", ""⟩]).1
    ∧ ∀ e ∈ (PatchStrategy ⟨[], [], [], []⟩ [⟨"test", "test", "1.0", "", ""⟩]).2,
        ∃ q ∈ [(⟨"test", "test", "1.0", "", ""⟩ : Patch)],
          q ≠ ⟨"test", "test", "1.0", "", ""⟩
          ∧ stagedName ⟨[], [], [], []⟩ q = some e.1 ∧ e.2 = q.version :=
  claim6_unknownDependencyEcho ⟨[], [], [], []⟩ [⟨"test", "test", "1.0", "", ""⟩]
    ⟨"test", "test", "1.0", "", ""⟩ (by decide) (by decide) (by decide)

end Pombump
